import Mathlib

/-!
Labyrinth solver (`UE04_Labyrinth/molver.go`)

A shallow embedding of the breadth-first search `bfs` and of the renderer
`markMap`, followed by the properties proved about them.

Conventions of the embedding.

* A Go `string` is the list of its bytes (`GoString`); a byte and a rune are
  natural numbers.  `grid[y][x]` on a `[]string` reads a byte, as in Go.
* A Go `int` is an `Int`.  Every coordinate that `bfs` computes is a
  neighbour of a coordinate that was just used as an index, so it lies
  within one step of the grid and 64-bit overflow cannot occur.
* An index expression that is out of range panics; this is the outcome
  `Outcome.panic`.
* The two maps of `bfs` are total functions: reading a missing key of a Go
  map gives the zero value (`false`, `Position{0, 0}`).
* The two unbounded loops of `bfs` are run on a fuel counter; running out
  of it is the separate outcome `Outcome.outOfFuel`.
-/

namespace Molver

/-! ## Data model -/

/-- Position is the coordinate pair of the source: `X` is the column and
`Y` is the row. -/
structure Position where
  X : Int
  Y : Int
deriving DecidableEq, Repr

/-- A Go string, as the list of its bytes. -/
abbrev GoString := List Nat

/-- Maze is the argument of `bfs`: the start coordinate and the rows. -/
structure Maze where
  start : Position
  grid : List GoString

/-- Outcome of running a piece of the program: a value, a run-time panic
(index out of range), or exhausted fuel. -/
inductive Outcome (α : Type) where
  | ok (val : α)
  | panic
  | outOfFuel
deriving DecidableEq, Repr

/-- Indexing `xs[i]` with a Go `int`: `none` stands for the index being out
of range. -/
def index {α : Type} (xs : List α) (i : Int) : Option α :=
  if i < 0 then none else xs[i.toNat]?

/-- The element `grid[p.Y][p.X]` of a slice of rows (a byte of a `[]string`,
a rune of a `[][]rune`); `none` when either index is out of range. -/
def cellAt (grid : List GoString) (p : Position) : Option Nat :=
  (index grid p.Y).bind (fun row => index row p.X)

/-- The byte of the exit marker `'A'`. -/
abbrev exitByte : Nat := 65

/-- The byte of a wall `'#'`. -/
abbrev wallByte : Nat := 35

/-- The rune of the start marker `'S'`. -/
abbrev startRune : Nat := 83

/-- The rune of the exit marker `'A'`. -/
abbrev exitRune : Nat := 65

/-- The rune `'.'` that `markMap` writes on the path. -/
abbrev dotRune : Nat := 46

/-! ## `bfs` -/

/-- The local variables of `bfs` that the search loop reads and writes. -/
structure Search where
  visited : Position → Bool
  parent : Position → Position
  queue : List Position
  exit : Position
  found : Bool
  head : Nat

/-- The slice `directions` of `bfs`: east, west, south, north. -/
def directions : List Position :=
  [⟨1, 0⟩, ⟨-1, 0⟩, ⟨0, 1⟩, ⟨0, -1⟩]

/-- The coordinate `(curr.X + d.X, curr.Y + d.Y)`. -/
def neighbor (curr d : Position) : Position :=
  ⟨curr.X + d.X, curr.Y + d.Y⟩

/-- The three statements of lines 63 to 65: mark the neighbour `n` visited,
record `curr` as its parent and append it to the queue. -/
def enqueue (s : Search) (curr n : Position) : Search :=
  { s with
    visited := Function.update s.visited n true
    parent := Function.update s.parent n curr
    queue := s.queue ++ [n] }

/-- One pass through the body of `for _, d := range directions`
(lines 50 to 65).  The bounds test is evaluated left to right with short
circuit, so `len(maze.grid[0])` is read only once `ny` is a valid row. -/
def visit (grid : List GoString) (curr : Position) (s : Search) (d : Position) :
    Outcome Search :=
  if (neighbor curr d).Y < 0 ∨ (neighbor curr d).Y ≥ (grid.length : Int) then .ok s
  else if (neighbor curr d).X < 0 then .ok s
  else
    match index grid 0 with
    | none => .panic
    | some row0 =>
      if (neighbor curr d).X ≥ (row0.length : Int) then .ok s
      else
        match cellAt grid (neighbor curr d) with
        | none => .panic
        | some c =>
          if c = wallByte then .ok s
          else if s.visited (neighbor curr d) = true then .ok s
          else .ok (enqueue s curr (neighbor curr d))

/-- The loop `for _, d := range directions` over the directions that are
still to do. -/
def expand (grid : List GoString) (curr : Position) :
    List Position → Search → Outcome Search
  | [], s => .ok s
  | d :: ds, s =>
    match visit grid curr s d with
    | .ok s1 => expand grid curr ds s1
    | .panic => .panic
    | .outOfFuel => .outOfFuel

/-- The loop `for head < len(queue)` (lines 39 to 67), one unit of fuel an
iteration.  `s.queue[s.head]?` is `none` exactly when the loop condition is
false. -/
def search (grid : List GoString) : Nat → Search → Outcome Search
  | 0, s => if s.head < s.queue.length then .outOfFuel else .ok s
  | fuel + 1, s =>
    match s.queue[s.head]? with
    | none => .ok s
    | some curr =>
      match cellAt grid curr with
      | none => .panic
      | some c =>
        if c = exitByte then
          .ok { s with head := s.head + 1, exit := curr, found := true }
        else
          match expand grid curr directions { s with head := s.head + 1 } with
          | .ok s1 => search grid fuel s1
          | .panic => .panic
          | .outOfFuel => .outOfFuel

/-- The loop `for curr := exit; curr != maze.start; curr = parent[curr]`
(lines 74 to 76), one unit of fuel an iteration. -/
def walkBack (start : Position) (parent : Position → Position) :
    Nat → Position → List Position → Outcome (List Position)
  | 0, curr, path => if curr = start then .ok path else .outOfFuel
  | fuel + 1, curr, path =>
    if curr = start then .ok path
    else walkBack start parent fuel (parent curr) (path ++ [curr])

/-- The state of `bfs` when it enters the search loop. -/
def initial (start : Position) : Search where
  visited := Function.update (fun _ => false) start true
  parent := fun _ => ⟨0, 0⟩
  queue := [start]
  exit := ⟨0, 0⟩
  found := false
  head := 0

/-- The function `bfs` with each of its two loops run on `fuel`.  The nil
slice is the empty list; the swap loop of lines 79 to 81 reverses `path`. -/
def bfsFuel (fuel : Nat) (maze : Maze) : Outcome (List Position) :=
  match search maze.grid fuel (initial maze.start) with
  | .ok s =>
    if s.found = true then
      match walkBack maze.start s.parent fuel s.exit [] with
      | .ok path => .ok (path ++ [maze.start]).reverse
      | .panic => .panic
      | .outOfFuel => .outOfFuel
    else .ok []
  | .panic => .panic
  | .outOfFuel => .outOfFuel

/-- The length of the first row, `len(maze.grid[0])`, and 0 for no rows. -/
def width (grid : List GoString) : Nat :=
  match grid with
  | [] => 0
  | row :: _ => row.length

/-- The function `bfs`.  Only coordinates below `len(grid)` by
`len(grid[0])` are ever appended to the queue, and none twice, so one unit
of fuel for each of them and one for the start is given to the loops. -/
def bfs (maze : Maze) : Outcome (List Position) :=
  bfsFuel (maze.grid.length * width maze.grid + 1) maze

/-! ## Strings and runes

The conversions `[]rune(s)` and `string(runes)` of `markMap`, as the Go
run time performs them (`decoderune` and `encoderune`): UTF-8, where a byte
that starts no well-formed sequence decodes to U+FFFD and is skipped alone,
and a surrogate or a value above U+10FFFF is encoded as U+FFFD.  A rune is
its code point; the runes that `markMap` handles are decoded ones and
`'.'`, so none is negative. -/

/-- The replacement character U+FFFD (`RuneError`). -/
abbrev runeError : Nat := 65533

/-- A continuation byte, `0x80` to `0xBF`. -/
def isCont (b : Nat) : Prop := 128 ≤ b ∧ b ≤ 191

instance (b : Nat) : Decidable (isCont b) := by
  unfold isCont; infer_instance

/-- The first rune of a string and the number of bytes it takes. -/
def decodeRune : GoString → Nat × Nat
  | [] => (runeError, 1)
  | b0 :: rest =>
    if b0 < 128 then (b0, 1)
    else if 192 ≤ b0 ∧ b0 < 224 then
      match rest with
      | b1 :: _ =>
        if isCont b1 ∧ 127 < (b0 % 32) * 64 + b1 % 64 then
          ((b0 % 32) * 64 + b1 % 64, 2)
        else (runeError, 1)
      | _ => (runeError, 1)
    else if 224 ≤ b0 ∧ b0 < 240 then
      match rest with
      | b1 :: b2 :: _ =>
        if isCont b1 ∧ isCont b2
            ∧ 2047 < (b0 % 16) * 4096 + (b1 % 64) * 64 + b2 % 64
            ∧ ¬ (55296 ≤ (b0 % 16) * 4096 + (b1 % 64) * 64 + b2 % 64
                ∧ (b0 % 16) * 4096 + (b1 % 64) * 64 + b2 % 64 ≤ 57343) then
          ((b0 % 16) * 4096 + (b1 % 64) * 64 + b2 % 64, 3)
        else (runeError, 1)
      | _ => (runeError, 1)
    else if 240 ≤ b0 ∧ b0 < 248 then
      match rest with
      | b1 :: b2 :: b3 :: _ =>
        if isCont b1 ∧ isCont b2 ∧ isCont b3
            ∧ 65535 < (b0 % 8) * 262144 + (b1 % 64) * 4096 + (b2 % 64) * 64 + b3 % 64
            ∧ (b0 % 8) * 262144 + (b1 % 64) * 4096 + (b2 % 64) * 64 + b3 % 64 ≤ 1114111 then
          ((b0 % 8) * 262144 + (b1 % 64) * 4096 + (b2 % 64) * 64 + b3 % 64, 4)
        else (runeError, 1)
      | _ => (runeError, 1)
    else (runeError, 1)

/-- The runes of a string from its first byte on, once `skip` bytes that
belong to the rune before have been passed over. -/
def runesFrom : Nat → GoString → List Nat
  | _, [] => []
  | skip + 1, _ :: bs => runesFrom skip bs
  | 0, b :: bs => (decodeRune (b :: bs)).1 :: runesFrom ((decodeRune (b :: bs)).2 - 1) bs

/-- The conversion `[]rune(s)`. -/
def runes (s : GoString) : List Nat := runesFrom 0 s

/-- The UTF-8 bytes of one rune. -/
def encodeRune (r : Nat) : GoString :=
  if r ≤ 127 then [r]
  else if r ≤ 2047 then [192 + r / 64, 128 + r % 64]
  else if 1114111 < r ∨ (55296 ≤ r ∧ r ≤ 57343) then [239, 191, 189]
  else if r ≤ 65535 then [224 + r / 4096, 128 + (r / 64) % 64, 128 + r % 64]
  else [240 + r / 262144, 128 + (r / 4096) % 64, 128 + (r / 64) % 64, 128 + r % 64]

/-- The conversion `string(row)` of a slice of runes. -/
def encode : List Nat → GoString
  | [] => []
  | r :: rs => encodeRune r ++ encode rs

/-- A Unicode scalar value: at most U+10FFFF and no surrogate. -/
def ValidRune (r : Nat) : Prop := r < 55296 ∨ (57343 < r ∧ r ≤ 1114111)

/-! ## `markMap` -/

/-- The assignment `mazeCopy[p.Y][p.X] = c`, for indices that are in range. -/
def setCell (rows : List (List Nat)) (p : Position) (c : Nat) : List (List Nat) :=
  rows.set p.Y.toNat ((rows.getD p.Y.toNat []).set p.X.toNat c)

/-- The loop `for _, pos := range path` of `markMap` (lines 107 to 111) on
the decoded rows; reading `mazeCopy[pos.Y][pos.X]` out of range panics. -/
def mark (rows : List (List Nat)) : List Position → Outcome (List (List Nat))
  | [] => .ok rows
  | pos :: rest =>
    match cellAt rows pos with
    | none => .panic
    | some c =>
      if c ≠ startRune ∧ c ≠ exitRune then mark (setCell rows pos dotRune) rest
      else mark rows rest

/-- The function `markMap`: decode every row, mark the path, encode every
row. -/
def markMap (maze : List GoString) (path : List Position) : Outcome (List GoString) :=
  match mark (maze.map runes) path with
  | .ok rows => .ok (rows.map encode)
  | .panic => .panic
  | .outOfFuel => .outOfFuel

/-- The character (code point) in column `p.X` of row `p.Y`, the way
`markMap` addresses the cells of a grid. -/
def charAt (grid : List GoString) (p : Position) : Option Nat :=
  cellAt (grid.map runes) p

/-! ## Vocabulary of the properties -/

/-- A rectangular grid: at least one row, and every row as long as the
first one, which is not empty. -/
def Rectangular (grid : List GoString) : Prop :=
  grid ≠ [] ∧ 0 < width grid ∧ ∀ row ∈ grid, row.length = width grid

instance (grid : List GoString) : Decidable (Rectangular grid) := by
  unfold Rectangular; infer_instance

/-- The coordinate is a valid index pair: `grid[p.Y][p.X]` does not panic. -/
def InBounds (grid : List GoString) (p : Position) : Prop :=
  (cellAt grid p).isSome = true

instance (grid : List GoString) (p : Position) : Decidable (InBounds grid p) := by
  unfold InBounds; infer_instance

/-- A cell that a move may enter: in bounds and not a wall. -/
def Open (grid : List GoString) (p : Position) : Prop :=
  InBounds grid p ∧ cellAt grid p ≠ some wallByte

instance (grid : List GoString) (p : Position) : Decidable (Open grid p) := by
  unfold Open; infer_instance

/-- The Manhattan distance of two coordinates. -/
def manhattan (p q : Position) : Int :=
  |p.X - q.X| + |p.Y - q.Y|

/-- One orthogonal move from `u` onto the in-bounds cell `v` that is not a
wall. -/
def Step (grid : List GoString) (u v : Position) : Prop :=
  manhattan u v = 1 ∧ Open grid v

instance (grid : List GoString) (u v : Position) : Decidable (Step grid u v) := by
  unfold Step; infer_instance

/-- `Walk grid u v k`: the cell `v` is reached from `u` in exactly `k`
orthogonal moves through in-bounds cells that are not walls. -/
inductive Walk (grid : List GoString) (u : Position) : Position → Nat → Prop
  | here : Walk grid u u 0
  | move {v w : Position} {k : Nat} : Walk grid u v k → Step grid v w → Walk grid u w (k + 1)

/-- The cell holds the exit marker `'A'`. -/
def IsExit (grid : List GoString) (p : Position) : Prop :=
  cellAt grid p = some exitByte

instance (grid : List GoString) (p : Position) : Decidable (IsExit grid p) := by
  unfold IsExit; infer_instance

/-- Some exit is `m` moves away from `start`, and none is nearer. -/
def MinExitMoves (grid : List GoString) (start : Position) (m : Nat) : Prop :=
  (∃ a, IsExit grid a ∧ Walk grid start a m) ∧
    ∀ a k, IsExit grid a → Walk grid start a k → m ≤ k

/-- The cell `p` lies in layer `k` of the breadth-first layering from
`start`: `k` moves reach it and fewer do not. -/
def InLayer (grid : List GoString) (start p : Position) (k : Nat) : Prop :=
  Walk grid start p k ∧ ∀ j, Walk grid start p j → k ≤ j

/-- The nearest exit lies in layer `m` of the breadth-first layering. -/
def NearestExitLayer (grid : List GoString) (start : Position) (m : Nat) : Prop :=
  (∃ a, IsExit grid a ∧ InLayer grid start a m) ∧
    ∀ b k, IsExit grid b → InLayer grid start b k → m ≤ k

/-- What `markMap` leaves in the cell `q` that held the character `c`: the
marker `'.'` when `q` is on the path and `c` is neither `'S'` nor `'A'`, and
`c` otherwise. -/
def marked (path : List Position) (q : Position) (c : Nat) : Nat :=
  if c ≠ startRune ∧ c ≠ exitRune ∧ q ∈ path then dotRune else c

/-! ## Concrete mazes and grids -/

/-- The rows `["###", "#S#", "#A#", "###"]` with start (1,1). -/
def mazeDown : Maze := ⟨⟨1, 1⟩, [[35, 35, 35], [35, 83, 35], [35, 65, 35], [35, 35, 35]]⟩

/-- The rows `["###", "#S#", "###"]` with start (1,1): the start is walled
in. -/
def mazeClosed : Maze := ⟨⟨1, 1⟩, [[35, 35, 35], [35, 83, 35], [35, 35, 35]]⟩

/-- The rows `["####", "#S #", "# A#", "####"]` with start (1,1): two routes
of two moves lead to the exit. -/
def mazeTie : Maze :=
  ⟨⟨1, 1⟩, [[35, 35, 35, 35], [35, 83, 32, 35], [35, 32, 65, 35], [35, 35, 35, 35]]⟩

/-- The row `["#A"]` with the start (0,0) on the wall. -/
def mazeWallStart : Maze := ⟨⟨0, 0⟩, [[35, 65]]⟩

/-- The row `["#A"]` with the start (5,0) outside the grid. -/
def mazeOutside : Maze := ⟨⟨5, 0⟩, [[35, 65]]⟩

/-- The ragged rows `["S ", "A"]` with start (0,0): the second row is
shorter than the first. -/
def mazeShortRow : Maze := ⟨⟨0, 0⟩, [[83, 32], [65]]⟩

/-- The ragged rows `["S", " A"]` with start (0,0): the second row is longer
than the first. -/
def mazeLongRow : Maze := ⟨⟨0, 0⟩, [[83], [32, 65]]⟩

/-- The row `["A#"]` with start (0,0) on the exit. -/
def mazeOnExit : Maze := ⟨⟨0, 0⟩, [[65, 35]]⟩

/-- The rows `["#S #", "# A#"]` of a rendering example. -/
def gridRender : List GoString := [[35, 83, 32, 35], [35, 32, 65, 35]]

/-- The rows `["é#", "€.A"]`, with characters of two and three bytes. -/
def gridWide : List GoString := [[195, 169, 35], [226, 130, 172, 46, 65]]

/-! ## Invariants of the search -/

/-- The loop invariant of the search.  The queue is `pre ++ post`: the
coordinates of `pre` have been popped and expanded, those of `post` are
still to pop.  `dep` is a ghost labelling of the queued coordinates with
their depth in the parent tree. -/
structure Inv (grid : List GoString) (start : Position) (s : Search)
    (dep : Position → Nat) (pre post : List Position) : Prop where
  queue_eq : s.queue = pre ++ post
  start_mem : start ∈ s.queue
  dep_start : dep start = 0
  visited_iff : ∀ p, s.visited p = true ↔ p ∈ s.queue
  nodup : s.queue.Nodup
  inb : ∀ p ∈ s.queue, InBounds grid p
  par : ∀ p ∈ s.queue, p ≠ start →
    s.parent p ∈ s.queue ∧ ¬ IsExit grid (s.parent p) ∧ Step grid (s.parent p) p
      ∧ dep p = dep (s.parent p) + 1
  walk : ∀ p ∈ s.queue, Walk grid start p (dep p)
  dep_lt : ∀ p ∈ s.queue, dep p < s.queue.length
  sorted : s.queue.Pairwise (fun a b => dep a ≤ dep b)
  near : ∀ a ∈ post, ∀ b ∈ s.queue, dep b ≤ dep a + 1
  closed : ∀ u ∈ pre, ∀ v, Step grid u v → v ∈ s.queue ∧ dep v ≤ dep u + 1
  noexit : ∀ u ∈ pre, ¬ IsExit grid u

/-- The state in which the search loop stops: the invariant holds, and
either an exit was popped (it heads the coordinates still to pop) or the
queue is used up. -/
structure Stopped (grid : List GoString) (start : Position) (s : Search)
    (dep : Position → Nat) (pre post : List Position) : Prop where
  inv : Inv grid start s dep pre post
  found : s.found = true → IsExit grid s.exit ∧ ∃ rest, post = s.exit :: rest
  notFound : s.found ≠ true → post = []

/-- The list `l` is a route of the parent tree from `start` to `p`: it
begins at `start`, ends at `p`, each coordinate is one step from the one
before, all are queued, their depths count up from 0, and `p` apart none is
an exit. -/
structure Route (grid : List GoString) (start : Position) (queue : List Position)
    (dep : Position → Nat) (p : Position) (l : List Position) : Prop where
  first : l.head? = some start
  last : l.getLast? = some p
  chain : l.Chain' (Step grid)
  mem : ∀ q ∈ l, q ∈ queue
  deps : l.map dep = List.range (dep p + 1)
  inner : ∀ q ∈ l, q ≠ p → ¬ IsExit grid q

/-! ## States of a run of the search -/

/-- The states in which `bfs` tests the condition of `for head < len(queue)`:
the state before the loop, and each state that a full iteration which
expanded a popped coordinate leaves behind. -/
inductive AtLoopHead (grid : List GoString) (start : Position) : Search → Prop
  | init : AtLoopHead grid start (initial start)
  | next {s s1 : Search} {curr : Position} {c : Nat} :
      AtLoopHead grid start s → s.queue[s.head]? = some curr →
      cellAt grid curr = some c → c ≠ exitByte →
      expand grid curr directions { s with head := s.head + 1 } = .ok s1 →
      AtLoopHead grid start s1

/-- The states that a run of the search loop passes through: the states at
the head of the loop, the state after `head++`, the state after the `break`
on an exit, and the states between two passes of the loop over the
directions (`done` are the directions already handled). -/
inductive Reached (grid : List GoString) (start : Position) : Search → Prop
  | head {s : Search} : AtLoopHead grid start s → Reached grid start s
  | popped {s : Search} {curr : Position} :
      AtLoopHead grid start s → s.queue[s.head]? = some curr →
      Reached grid start { s with head := s.head + 1 }
  | exit {s : Search} {curr : Position} :
      AtLoopHead grid start s → s.queue[s.head]? = some curr →
      cellAt grid curr = some exitByte →
      Reached grid start { s with head := s.head + 1, exit := curr, found := true }
  | inner {s s1 : Search} {curr : Position} {c : Nat} {done todo : List Position} :
      AtLoopHead grid start s → s.queue[s.head]? = some curr →
      cellAt grid curr = some c → c ≠ exitByte → done ++ todo = directions →
      expand grid curr done { s with head := s.head + 1 } = .ok s1 →
      Reached grid start s1

/-! ## The grid as part of the state

For the question whether a call changes the rows it was given, the rows are
made a component of the state: every step reads them from the state and
returns the whole state.  The slice `maze.grid` of `bfs` and the parameter
`maze` of `markMap` share their elements with the caller, so an assignment
to one of them would show in this component; the conversion `[]rune(maze[i])`
allocates, so `mazeCopy` is a component of its own. -/

/-- Apply a function to the value of an outcome. -/
def Outcome.map {α β : Type} (f : α → β) : Outcome α → Outcome β
  | .ok a => .ok (f a)
  | .panic => .panic
  | .outOfFuel => .outOfFuel

/-- The state of a call of `bfs`: the rows of `maze.grid`, the variables of
the search and the slice `path`. -/
structure BfsStore where
  grid : List GoString
  vars : Search
  path : List Position

/-- The loop over the directions, on the whole state. -/
def expandStore (curr : Position) : List Position → BfsStore → Outcome BfsStore
  | [], st => .ok st
  | d :: ds, st =>
    match visit st.grid curr st.vars d with
    | .ok v => expandStore curr ds { st with vars := v }
    | .panic => .panic
    | .outOfFuel => .outOfFuel

/-- The loop `for head < len(queue)`, on the whole state. -/
def searchStore : Nat → BfsStore → Outcome BfsStore
  | 0, st => if st.vars.head < st.vars.queue.length then .outOfFuel else .ok st
  | fuel + 1, st =>
    match st.vars.queue[st.vars.head]? with
    | none => .ok st
    | some curr =>
      match cellAt st.grid curr with
      | none => .panic
      | some c =>
        if c = exitByte then
          .ok { st with
            vars := { st.vars with head := st.vars.head + 1, exit := curr, found := true } }
        else
          match expandStore curr directions
              { st with vars := { st.vars with head := st.vars.head + 1 } } with
          | .ok st1 => searchStore fuel st1
          | .panic => .panic
          | .outOfFuel => .outOfFuel

/-- The function `bfs` on the whole state; the returned slice is the
component `path` (nil when no exit is found). -/
def bfsStore (fuel : Nat) (maze : Maze) : Outcome BfsStore :=
  match searchStore fuel { grid := maze.grid, vars := initial maze.start, path := [] } with
  | .ok st =>
    if st.vars.found = true then
      match walkBack maze.start st.vars.parent fuel st.vars.exit [] with
      | .ok path => .ok { st with path := (path ++ [maze.start]).reverse }
      | .panic => .panic
      | .outOfFuel => .outOfFuel
    else .ok st
  | .panic => .panic
  | .outOfFuel => .outOfFuel

/-- The state of a call of `markMap`: the rows of the parameter `maze`, the
slice `mazeCopy` and the slice `result`. -/
structure RenderStore where
  maze : List GoString
  mazeCopy : List (List Nat)
  result : List GoString

/-- The loop `for _, pos := range path`, on the whole state. -/
def markStore : List Position → RenderStore → Outcome RenderStore
  | [], st => .ok st
  | pos :: rest, st =>
    match cellAt st.mazeCopy pos with
    | none => .panic
    | some c =>
      if c ≠ startRune ∧ c ≠ exitRune then
        markStore rest { st with mazeCopy := setCell st.mazeCopy pos dotRune }
      else markStore rest st

/-- The function `markMap` on the whole state: fill `mazeCopy` from the
rows, mark the path in `mazeCopy`, fill `result` from `mazeCopy`. -/
def markMapStore (maze : List GoString) (path : List Position) : Outcome RenderStore :=
  match markStore path { maze := maze, mazeCopy := maze.map runes, result := [] } with
  | .ok st => .ok { st with result := st.mazeCopy.map encode }
  | .panic => .panic
  | .outOfFuel => .outOfFuel

/-! ## Order of the moves -/

/-- The place of the move from `u` to `v` in the slice `directions`: 0 for
east, 1 for west, 2 for south, 3 for north, and 4 when `v` is no neighbour
of `u`. -/
def moveRank (u v : Position) : Nat :=
  directions.indexOf ⟨v.X - u.X, v.Y - u.Y⟩

/-- The sequence of moves of a list of coordinates, each move as its place
in `directions`. -/
def moves : List Position → List Nat
  | u :: v :: rest => moveRank u v :: moves (v :: rest)
  | _ => []

/-- The lexicographic order on sequences of moves. -/
def lexLe : List Nat → List Nat → Prop
  | [], _ => True
  | _ :: _, [] => False
  | a :: as, b :: bs => a < b ∨ (a = b ∧ lexLe as bs)

/-- A list of coordinates that leads from `start` to an exit, each
coordinate one step from the one before. -/
structure ExitRoute (grid : List GoString) (start : Position) (l : List Position) :
    Prop where
  first : l.head? = some start
  last : ∃ a, l.getLast? = some a ∧ IsExit grid a
  chain : l.Chain' (Step grid)

/-- The number that a sequence of moves is in bijective base 4, each move
counted as the digit one more than its rank: shorter sequences have smaller
numbers, and sequences of equal length are ordered as their numbers. -/
def moveKey (ms : List Nat) : Nat :=
  ms.foldl (fun acc r => 4 * acc + r + 1) 0

/-- The part of the loop invariant that orders the queue: `key` is a ghost
labelling of the queued coordinates with the `moveKey` of their route in the
parent tree; the queue is sorted by it, and the open neighbours of an
expanded coordinate have a key at most that of the route through it. -/
structure LexInv (grid : List GoString) (start : Position) (s : Search)
    (key : Position → Nat) (pre : List Position) : Prop where
  key_start : key start = 0
  key_par : ∀ p ∈ s.queue, p ≠ start →
    key p = 4 * key (s.parent p) + moveRank (s.parent p) p + 1
  ksorted : s.queue.Pairwise (fun a b => key a < key b)
  kclosed : ∀ u ∈ pre, ∀ v, Step grid u v →
    v ∈ s.queue ∧ key v ≤ 4 * key u + moveRank u v + 1

/-! ## A maze with characters of several bytes -/

/-- The rows `["########", "#SééA#", "########"]` with start (1,1): each
row has eight bytes, the middle one six characters. -/
def mazeAccent : Maze :=
  ⟨⟨1, 1⟩, [[35, 35, 35, 35, 35, 35, 35, 35], [35, 83, 195, 169, 195, 169, 65, 35],
    [35, 35, 35, 35, 35, 35, 35, 35]]⟩

/-! # Proofs -/

/-! ## Indexing -/

theorem index_eq_some {α : Type} {l : List α} {i : Int} {a : α} :
    index l i = some a ↔ 0 ≤ i ∧ l[i.toNat]? = some a := by
  unfold index
  by_cases h : i < 0
  · simp [h]
  · simp only [h, if_false]
    constructor
    · intro h1; exact ⟨by omega, h1⟩
    · intro h1; exact h1.2

theorem index_lt {α : Type} {l : List α} {i : Int} {a : α}
    (h : index l i = some a) : 0 ≤ i ∧ i < l.length ∧ a ∈ l := by
  rw [index_eq_some] at h
  obtain ⟨h0, h1⟩ := h
  obtain ⟨hlt, _⟩ := List.getElem?_eq_some.mp h1
  exact ⟨h0, by omega, List.getElem?_mem h1⟩

theorem index_of_lt {α : Type} {l : List α} {i : Int}
    (h0 : 0 ≤ i) (h1 : i < l.length) : ∃ a, index l i = some a := by
  have hlt : i.toNat < l.length := by omega
  exact ⟨l[i.toNat], index_eq_some.mpr ⟨h0, List.getElem?_eq_getElem hlt⟩⟩

theorem index_zero_length {grid : List GoString} {row0 : GoString}
    (h : index grid 0 = some row0) : row0.length = width grid := by
  cases grid with
  | nil => simp [index] at h
  | cons r rs => simp [index] at h; simp [width, h]

/-- On a rectangular grid the valid index pairs are those of the
rectangle `len(grid)` by `len(grid[0])`. -/
theorem inBounds_iff {grid : List GoString} (hr : Rectangular grid) (p : Position) :
    InBounds grid p ↔ (0 ≤ p.Y ∧ p.Y < grid.length) ∧ 0 ≤ p.X ∧ p.X < width grid := by
  unfold InBounds cellAt
  rw [Option.isSome_iff_exists]
  constructor
  · rintro ⟨c, hc⟩
    cases hrow : index grid p.Y with
    | none => simp [hrow] at hc
    | some row =>
      rw [hrow, Option.some_bind] at hc
      have h1 := index_lt hrow
      have h2 := index_lt hc
      have hlen := hr.2.2 row h1.2.2
      exact ⟨⟨h1.1, h1.2.1⟩, h2.1, by omega⟩
  · rintro ⟨hy, hx⟩
    obtain ⟨row, hrow⟩ := index_of_lt (l := grid) hy.1 hy.2
    have hlen := hr.2.2 row (index_lt hrow).2.2
    obtain ⟨c, hc⟩ := index_of_lt (l := row) hx.1 (by omega)
    exact ⟨c, by rw [hrow, Option.some_bind, hc]⟩

theorem cellAt_of_inBounds {grid : List GoString} {p : Position}
    (h : InBounds grid p) : ∃ c, cellAt grid p = some c :=
  Option.isSome_iff_exists.mp h

/-- Manhattan distance 1 is one of the four entries of `directions`. -/
theorem manhattan_one_iff (u v : Position) :
    manhattan u v = 1 ↔ ∃ d ∈ directions, v = neighbor u d := by
  obtain ⟨ux, uy⟩ := u
  obtain ⟨vx, vy⟩ := v
  simp only [manhattan, Int.abs_eq_natAbs, directions, neighbor, List.mem_cons,
    List.mem_singleton, exists_eq_or_imp, List.not_mem_nil, false_or, or_false,
    Position.mk.injEq, exists_eq_left]
  constructor
  · intro h; omega
  · intro h; omega

/-! ## The search loop on a rectangular grid -/

/-- On a rectangular grid one pass of the inner loop never panics: it
enqueues the neighbour when that is an open cell not yet visited, and
leaves the state alone otherwise. -/
theorem visit_rect {grid : List GoString} (hr : Rectangular grid)
    (curr d : Position) (s : Search) :
    visit grid curr s d =
      .ok (if Open grid (neighbor curr d) ∧ s.visited (neighbor curr d) ≠ true
        then enqueue s curr (neighbor curr d) else s) := by
  have hib := inBounds_iff hr (neighbor curr d)
  unfold visit
  by_cases h1 : (neighbor curr d).Y < 0 ∨ (neighbor curr d).Y ≥ (grid.length : Int)
  · have : ¬ InBounds grid (neighbor curr d) := by rw [hib]; omega
    simp [h1, Open, this]
  rw [if_neg h1]
  by_cases h2 : (neighbor curr d).X < 0
  · have : ¬ InBounds grid (neighbor curr d) := by rw [hib]; omega
    simp [h2, Open, this]
  rw [if_neg h2]
  obtain ⟨row0, hrow0⟩ := index_of_lt (l := grid) (i := 0) (le_refl 0) (by omega)
  have hw := index_zero_length hrow0
  simp only [hrow0]
  by_cases h3 : (neighbor curr d).X ≥ (row0.length : Int)
  · have : ¬ InBounds grid (neighbor curr d) := by rw [hib]; omega
    simp [h3, Open, this]
  rw [if_neg h3]
  have hin : InBounds grid (neighbor curr d) := by rw [hib]; omega
  obtain ⟨c, hc⟩ := cellAt_of_inBounds hin
  simp only [hc]
  by_cases h4 : c = wallByte
  · simp [h4, Open, hc]
  · by_cases h5 : s.visited (neighbor curr d) = true
    · simp [h4, h5]
    · simp [h4, h5, Open, hin, hc]

theorem Inv.curr_le {grid : List GoString} {start : Position} {s : Search}
    {dep : Position → Nat} {pre post : List Position} {curr : Position}
    (h : Inv grid start s dep pre (curr :: post)) :
    ∀ a ∈ post, dep curr ≤ dep a := by
  have hs := h.sorted
  rw [h.queue_eq, List.pairwise_append] at hs
  exact (List.pairwise_cons.mp hs.2.1).1

theorem Inv.curr_mem {grid : List GoString} {start : Position} {s : Search}
    {dep : Position → Nat} {pre post : List Position} {curr : Position}
    (h : Inv grid start s dep pre (curr :: post)) : curr ∈ s.queue := by
  rw [h.queue_eq]; simp

/-- One pass of the inner loop keeps the invariant, and afterwards the
neighbour in direction `d` is queued at depth at most one more than `curr`
whenever it is an open cell. -/
theorem visit_inv {grid : List GoString} (hr : Rectangular grid) {start : Position}
    {s : Search} {dep : Position → Nat} {pre post : List Position} {curr d : Position}
    (hd : d ∈ directions) (hne : ¬ IsExit grid curr)
    (h : Inv grid start s dep pre (curr :: post)) :
    ∃ s1 dep1 post1, visit grid curr s d = .ok s1
      ∧ Inv grid start s1 dep1 pre (curr :: post1)
      ∧ (∀ p ∈ s.queue, p ∈ s1.queue ∧ dep1 p = dep p)
      ∧ (Open grid (neighbor curr d) →
          neighbor curr d ∈ s1.queue ∧ dep1 (neighbor curr d) ≤ dep1 curr + 1)
      ∧ s1.head = s.head ∧ s1.found = s.found := by
  rw [visit_rect hr]
  have hcm := h.curr_mem
  by_cases hc : Open grid (neighbor curr d) ∧ s.visited (neighbor curr d) ≠ true
  · obtain ⟨hopen, hnv⟩ := hc
    have hnq : neighbor curr d ∉ s.queue := fun hm => hnv ((h.visited_iff _).mpr hm)
    have hdep : ∀ p ∈ s.queue,
        Function.update dep (neighbor curr d) (dep curr + 1) p = dep p := by
      intro p hp
      exact Function.update_noteq (fun e : p = neighbor curr d => hnq (e ▸ hp)) _ _
    have hpar : ∀ p ∈ s.queue,
        Function.update s.parent (neighbor curr d) curr p = s.parent p := by
      intro p hp
      exact Function.update_noteq (fun e : p = neighbor curr d => hnq (e ▸ hp)) _ _
    have hstep : Step grid curr (neighbor curr d) :=
      ⟨(manhattan_one_iff _ _).mpr ⟨d, hd, rfl⟩, hopen⟩
    refine ⟨enqueue s curr (neighbor curr d),
      Function.update dep (neighbor curr d) (dep curr + 1), post ++ [neighbor curr d],
      by rw [if_pos ⟨hopen, hnv⟩], ?_, ?_, ?_, rfl, rfl⟩
    · constructor
      · show s.queue ++ [neighbor curr d] = pre ++ curr :: (post ++ [neighbor curr d])
        rw [h.queue_eq]; simp
      · show start ∈ s.queue ++ [neighbor curr d]
        exact List.mem_append_left _ h.start_mem
      · rw [hdep _ h.start_mem]; exact h.dep_start
      · intro p
        show Function.update s.visited (neighbor curr d) true p = true
          ↔ p ∈ s.queue ++ [neighbor curr d]
        by_cases hp : p = neighbor curr d
        · subst hp; simp
        · rw [Function.update_noteq hp, h.visited_iff]; simp [hp]
      · show (s.queue ++ [neighbor curr d]).Nodup
        rw [List.nodup_append]
        refine ⟨h.nodup, List.nodup_singleton _, ?_⟩
        intro x hx hx2
        rw [List.mem_singleton] at hx2
        exact hnq (hx2 ▸ hx)
      · intro p hp
        change p ∈ s.queue ++ [neighbor curr d] at hp
        rcases List.mem_append.mp hp with hp | hp
        · exact h.inb p hp
        · rw [List.mem_singleton] at hp; rw [hp]; exact hopen.1
      · intro p hp hps
        change p ∈ s.queue ++ [neighbor curr d] at hp
        show Function.update s.parent (neighbor curr d) curr p ∈ s.queue ++ [neighbor curr d]
          ∧ ¬ IsExit grid (Function.update s.parent (neighbor curr d) curr p)
          ∧ Step grid (Function.update s.parent (neighbor curr d) curr p) p
          ∧ Function.update dep (neighbor curr d) (dep curr + 1) p
            = Function.update dep (neighbor curr d) (dep curr + 1)
                (Function.update s.parent (neighbor curr d) curr p) + 1
        rcases List.mem_append.mp hp with hp | hp
        · obtain ⟨h1, h2, h3, h4⟩ := h.par p hp hps
          rw [hpar p hp, hdep p hp, hdep _ h1]
          exact ⟨List.mem_append_left _ h1, h2, h3, h4⟩
        · rw [List.mem_singleton] at hp
          subst hp
          rw [Function.update_same, Function.update_same, hdep _ hcm]
          exact ⟨List.mem_append_left _ hcm, hne, hstep, rfl⟩
      · intro p hp
        change p ∈ s.queue ++ [neighbor curr d] at hp
        rcases List.mem_append.mp hp with hp | hp
        · rw [hdep p hp]; exact h.walk p hp
        · rw [List.mem_singleton] at hp
          subst hp
          rw [Function.update_same]
          exact Walk.move (h.walk _ hcm) hstep
      · intro p hp
        change p ∈ s.queue ++ [neighbor curr d] at hp
        show _ < (s.queue ++ [neighbor curr d]).length
        rw [List.length_append, List.length_singleton]
        rcases List.mem_append.mp hp with hp | hp
        · rw [hdep p hp]; exact Nat.lt_succ_of_lt (h.dep_lt p hp)
        · rw [List.mem_singleton] at hp
          subst hp
          rw [Function.update_same]
          exact Nat.succ_lt_succ (h.dep_lt _ hcm)
      · show (s.queue ++ [neighbor curr d]).Pairwise _
        rw [List.pairwise_append]
        refine ⟨?_, List.pairwise_singleton _ _, ?_⟩
        · refine h.sorted.imp_of_mem ?_
          intro a b ha hb hab
          rw [hdep a ha, hdep b hb]; exact hab
        · intro a ha b hb
          rw [List.mem_singleton] at hb
          subst hb
          rw [hdep a ha, Function.update_same]
          exact h.near curr (List.mem_cons_self _ _) a ha
      · intro a ha b hb
        change b ∈ s.queue ++ [neighbor curr d] at hb
        have hb1 : Function.update dep (neighbor curr d) (dep curr + 1) b ≤ dep curr + 1 := by
          rcases List.mem_append.mp hb with hb | hb
          · rw [hdep b hb]; exact h.near curr (List.mem_cons_self _ _) b hb
          · rw [List.mem_singleton] at hb
            subst hb
            rw [Function.update_same]
        have ha1 : dep curr ≤ Function.update dep (neighbor curr d) (dep curr + 1) a := by
          rcases List.mem_cons.mp ha with ha | ha
          · subst ha; rw [hdep _ hcm]
          · rcases List.mem_append.mp ha with ha | ha
            · have haq : a ∈ s.queue := by rw [h.queue_eq]; simp [ha]
              rw [hdep a haq]; exact h.curr_le a ha
            · rw [List.mem_singleton] at ha
              subst ha
              rw [Function.update_same]; exact Nat.le_succ _
        omega
      · intro u hu v huv
        have huq : u ∈ s.queue := by rw [h.queue_eq]; simp [hu]
        obtain ⟨h1, h2⟩ := h.closed u hu v huv
        show v ∈ s.queue ++ [neighbor curr d] ∧ _
        rw [hdep v h1, hdep u huq]
        exact ⟨List.mem_append_left _ h1, h2⟩
      · exact h.noexit
    · intro p hp
      exact ⟨List.mem_append_left _ hp, hdep p hp⟩
    · intro _
      refine ⟨?_, ?_⟩
      · show neighbor curr d ∈ s.queue ++ [neighbor curr d]
        simp
      · rw [Function.update_same, hdep _ hcm]
  · refine ⟨s, dep, post, by rw [if_neg hc], h, fun p hp => ⟨hp, rfl⟩, ?_, rfl, rfl⟩
    intro hopen
    have hv : s.visited (neighbor curr d) = true := by
      by_contra hv
      exact hc ⟨hopen, hv⟩
    have hq := (h.visited_iff _).mp hv
    exact ⟨hq, h.near curr (List.mem_cons_self _ _) _ hq⟩

/-- The inner loop over the directions `ds` keeps the invariant and never
panics; afterwards every open neighbour of `curr` in a direction of `ds` is
queued, at depth at most one more than `curr`. -/
theorem expand_inv {grid : List GoString} (hr : Rectangular grid) {start curr : Position}
    (hne : ¬ IsExit grid curr) :
    ∀ (ds : List Position), (∀ d ∈ ds, d ∈ directions) →
    ∀ (s : Search) (dep : Position → Nat) (pre post : List Position),
    Inv grid start s dep pre (curr :: post) →
    ∃ s1 dep1 post1, expand grid curr ds s = .ok s1
      ∧ Inv grid start s1 dep1 pre (curr :: post1)
      ∧ (∀ p ∈ s.queue, p ∈ s1.queue ∧ dep1 p = dep p)
      ∧ (∀ d ∈ ds, Open grid (neighbor curr d) →
          neighbor curr d ∈ s1.queue ∧ dep1 (neighbor curr d) ≤ dep1 curr + 1)
      ∧ s1.head = s.head ∧ s1.found = s.found := by
  intro ds
  induction ds with
  | nil =>
    intro _ s dep pre post h
    exact ⟨s, dep, post, rfl, h, fun p hp => ⟨hp, rfl⟩, by simp, rfl, rfl⟩
  | cons d ds ih =>
    intro hds s dep pre post h
    obtain ⟨s1, dep1, post1, hv, h1, hk1, hd1, hh1, hf1⟩ :=
      visit_inv hr (hds d (List.mem_cons_self _ _)) hne h
    obtain ⟨s2, dep2, post2, he, h2, hk2, hd2, hh2, hf2⟩ :=
      ih (fun e he => hds e (List.mem_cons_of_mem _ he)) s1 dep1 pre post1 h1
    refine ⟨s2, dep2, post2, ?_, h2, ?_, ?_, hh2.trans hh1, hf2.trans hf1⟩
    · simp only [expand, hv]; exact he
    · intro p hp
      have a := hk1 p hp
      have b := hk2 p a.1
      exact ⟨b.1, b.2.trans a.2⟩
    · intro e he hopen
      rcases List.mem_cons.mp he with he | he
      · subst he
        have a := hd1 hopen
        have b := hk2 _ a.1
        have c := hk2 _ h1.curr_mem
        exact ⟨b.1, by rw [b.2, c.2]; exact a.2⟩
      · exact hd2 e he hopen

/-- Once every open neighbour of the head of the queue is queued, the head
moves over to the expanded coordinates. -/
theorem Inv.advance {grid : List GoString} {start : Position} {s : Search}
    {dep : Position → Nat} {pre post : List Position} {curr : Position}
    (h : Inv grid start s dep pre (curr :: post)) (hne : ¬ IsExit grid curr)
    (hcl : ∀ v, Step grid curr v → v ∈ s.queue ∧ dep v ≤ dep curr + 1) :
    Inv grid start s dep (pre ++ [curr]) post where
  queue_eq := by rw [h.queue_eq]; simp
  start_mem := h.start_mem
  dep_start := h.dep_start
  visited_iff := h.visited_iff
  nodup := h.nodup
  inb := h.inb
  par := h.par
  walk := h.walk
  dep_lt := h.dep_lt
  sorted := h.sorted
  near := fun a ha b hb => h.near a (List.mem_cons_of_mem _ ha) b hb
  closed := by
    intro u hu v huv
    rcases List.mem_append.mp hu with hu | hu
    · exact h.closed u hu v huv
    · rw [List.mem_singleton] at hu; subst hu; exact hcl v huv
  noexit := by
    intro u hu
    rcases List.mem_append.mp hu with hu | hu
    · exact h.noexit u hu
    · rw [List.mem_singleton] at hu; subst hu; exact hne

/-- A list of distinct coordinates of an `r` by `w` rectangle has at most
`r * w` entries. -/
theorem length_le_cells (l : List Position) (r w : Nat) (hnd : l.Nodup)
    (hb : ∀ p ∈ l, (0 ≤ p.Y ∧ p.Y < r) ∧ 0 ≤ p.X ∧ p.X < w) : l.length ≤ r * w := by
  have hinj : ∀ x ∈ l, ∀ y ∈ l,
      (fun p : Position => (p.Y.toNat, p.X.toNat)) x
        = (fun p : Position => (p.Y.toNat, p.X.toNat)) y → x = y := by
    intro x hx y hy hxy
    have h1 := hb x hx
    have h2 := hb y hy
    obtain ⟨x1, x2⟩ := x
    obtain ⟨y1, y2⟩ := y
    simp only [Prod.mk.injEq] at hxy
    simp only at h1 h2
    simp only [Position.mk.injEq]
    omega
  have hnd2 := List.Nodup.map_on hinj hnd
  have hcard := List.toFinset_card_of_nodup hnd2
  rw [List.length_map] at hcard
  have hsub : (l.map (fun p : Position => (p.Y.toNat, p.X.toNat))).toFinset
      ⊆ Finset.range r ×ˢ Finset.range w := by
    intro q hq
    rw [List.mem_toFinset, List.mem_map] at hq
    obtain ⟨p, hp, rfl⟩ := hq
    have h1 := hb p hp
    rw [Finset.mem_product, Finset.mem_range, Finset.mem_range]
    constructor <;> simp only <;> omega
  have := Finset.card_le_card hsub
  rw [Finset.card_product, Finset.card_range, Finset.card_range, hcard] at this
  exact this

theorem Inv.length_le {grid : List GoString} (hr : Rectangular grid) {start : Position}
    {s : Search} {dep : Position → Nat} {pre post : List Position}
    (h : Inv grid start s dep pre post) : s.queue.length ≤ grid.length * width grid :=
  length_le_cells s.queue grid.length (width grid) h.nodup
    (fun p hp => (inBounds_iff hr p).mp (h.inb p hp))

/-- With one unit of fuel for every cell that is not yet expanded, the
search loop on a rectangular grid stops without panic. -/
theorem search_inv {grid : List GoString} (hr : Rectangular grid) {start : Position} :
    ∀ (fuel : Nat) (s : Search) (dep : Position → Nat) (pre post : List Position),
    Inv grid start s dep pre post → s.head = pre.length → s.found = false →
    grid.length * width grid ≤ fuel + pre.length →
    ∃ s1 dep1 pre1 post1, search grid fuel s = .ok s1
      ∧ Stopped grid start s1 dep1 pre1 post1 := by
  intro fuel
  induction fuel with
  | zero =>
    intro s dep pre post h hh hf hfuel
    have hlen := h.length_le hr
    have hq := congrArg List.length h.queue_eq
    rw [List.length_append] at hq
    have hpost : post = [] := List.eq_nil_of_length_eq_zero (by omega)
    refine ⟨s, dep, pre, post, ?_, h, ?_, fun _ => hpost⟩
    · have : ¬ s.head < s.queue.length := by omega
      simp only [search, this, if_false]
    · intro hf2; rw [hf] at hf2; exact absurd hf2 (by decide)
  | succ fuel ih =>
    intro s dep pre post h hh hf hfuel
    cases post with
    | nil =>
      refine ⟨s, dep, pre, [], ?_, h, ?_, fun _ => rfl⟩
      · have hnone : s.queue[s.head]? = none := by
          rw [List.getElem?_eq_none_iff, h.queue_eq, hh]; simp
        simp only [search, hnone]
      · intro hf2; rw [hf] at hf2; exact absurd hf2 (by decide)
    | cons curr post =>
      have hsome : s.queue[s.head]? = some curr := by
        rw [h.queue_eq, hh, List.getElem?_append_right (le_refl _)]; simp
      obtain ⟨c, hc⟩ := cellAt_of_inBounds (h.inb curr h.curr_mem)
      by_cases hex : c = exitByte
      · refine ⟨{ s with head := s.head + 1, exit := curr, found := true }, dep, pre,
          curr :: post, ?_, ⟨?_, ?_, ?_⟩⟩
        · simp only [search, hsome, hc, hex, if_true]
        · exact { h with }
        · intro _
          exact ⟨by show cellAt grid curr = some exitByte; rw [hc, hex], post, rfl⟩
        · intro hf2; exact absurd rfl hf2
      · have hne : ¬ IsExit grid curr := by
          intro e
          unfold IsExit at e
          rw [hc] at e
          exact hex (Option.some.inj e)
        have h0 : Inv grid start { s with head := s.head + 1 } dep pre (curr :: post) :=
          { h with }
        obtain ⟨s1, dep1, post1, he, h1, _, hd1, hh1, hf1⟩ :=
          expand_inv hr hne directions (fun d hd => hd) _ dep pre post h0
        have h2 : Inv grid start s1 dep1 (pre ++ [curr]) post1 := by
          refine h1.advance hne ?_
          intro v hv
          obtain ⟨d, hd, rfl⟩ := (manhattan_one_iff curr v).mp hv.1
          exact hd1 d hd hv.2
        obtain ⟨s3, dep3, pre3, post3, hs3, hst⟩ :=
          ih s1 dep1 (pre ++ [curr]) post1 h2
            (by rw [hh1, List.length_append, List.length_singleton]; exact congrArg (· + 1) hh)
            (by rw [hf1]; exact hf)
            (by rw [List.length_append, List.length_singleton]; omega)
        refine ⟨s3, dep3, pre3, post3, ?_, hst⟩
        simp only [search, hsome, hc, hex, if_false, he]
        exact hs3

/-- The state in which `bfs` enters the loop satisfies the invariant. -/
theorem initial_inv {grid : List GoString} {start : Position}
    (hs : InBounds grid start) :
    Inv grid start (initial start) (fun _ => 0) [] [start] where
  queue_eq := rfl
  start_mem := by simp [initial]
  dep_start := rfl
  visited_iff := by
    intro p
    show Function.update (fun _ => false) start true p = true ↔ p ∈ [start]
    by_cases hp : p = start
    · subst hp; simp
    · rw [Function.update_noteq hp]; simp [hp]
  nodup := by simp [initial]
  inb := by
    intro p hp
    simp only [initial, List.mem_singleton] at hp
    rw [hp]; exact hs
  par := by
    intro p hp hne
    simp only [initial, List.mem_singleton] at hp
    exact absurd hp hne
  walk := by
    intro p hp
    simp only [initial, List.mem_singleton] at hp
    rw [hp]; exact Walk.here
  dep_lt := by intro p _; simp [initial]
  sorted := by simp [initial]
  near := by intro a _ b _; exact Nat.zero_le _
  closed := by intro u hu; simp at hu
  noexit := by intro u hu; simp at hu

/-! ## Path reconstruction -/

theorem Route.length_eq {grid : List GoString} {start : Position} {queue : List Position}
    {dep : Position → Nat} {p : Position} {l : List Position}
    (h : Route grid start queue dep p l) : l.length = dep p + 1 := by
  have := congrArg List.length h.deps
  rwa [List.length_map, List.length_range] at this

/-- The parent walk from a queued coordinate `p` reaches `start` within
`dep p` iterations, and what it appends to `path` is, read backwards and
with `start` in front, a route from `start` to `p`. -/
theorem walkBack_inv {grid : List GoString} {start : Position} {s : Search}
    {dep : Position → Nat} {pre post : List Position}
    (h : Inv grid start s dep pre post) :
    ∀ (fuel : Nat) (p : Position) (acc : List Position), p ∈ s.queue → dep p ≤ fuel →
    ∃ l, walkBack start s.parent fuel p acc = .ok (acc ++ l)
      ∧ Route grid start s.queue dep p (l ++ [start]).reverse := by
  have hbase : Route grid start s.queue dep start ([] ++ [start]).reverse := by
    refine ⟨rfl, rfl, by simp, ?_, ?_, ?_⟩
    · intro q hq
      simp only [List.nil_append, List.reverse_singleton, List.mem_singleton] at hq
      rw [hq]; exact h.start_mem
    · simp [h.dep_start, List.range_succ]
    · intro q hq hne
      simp only [List.nil_append, List.reverse_singleton, List.mem_singleton] at hq
      exact absurd hq hne
  intro fuel
  induction fuel with
  | zero =>
    intro p acc hp hfuel
    by_cases hps : p = start
    · subst hps
      exact ⟨[], by simp [walkBack], hbase⟩
    · have := (h.par p hp hps).2.2.2
      omega
  | succ fuel ih =>
    intro p acc hp hfuel
    by_cases hps : p = start
    · subst hps
      exact ⟨[], by simp [walkBack], hbase⟩
    · obtain ⟨hq, hnx, hstep, hdep⟩ := h.par p hp hps
      obtain ⟨l, hl, hr⟩ := ih (s.parent p) (acc ++ [p]) hq (by omega)
      refine ⟨p :: l, ?_, ?_⟩
      · simp only [walkBack, hps, if_false, hl, List.append_assoc, List.singleton_append]
      · have hrev : (p :: l ++ [start]).reverse = (l ++ [start]).reverse ++ [p] := by simp
        rw [hrev]
        have hne : (l ++ [start]).reverse ≠ [] := by simp
        refine ⟨?_, ?_, ?_, ?_, ?_, ?_⟩
        · rw [List.head?_append_of_ne_nil _ hne]; exact hr.first
        · rw [List.getLast?_append]; rfl
        · rw [List.chain'_append]
          refine ⟨hr.chain, List.chain'_singleton _, ?_⟩
          intro x hx y hy
          rw [hr.last] at hx
          simp only [Option.mem_def, Option.some.injEq, List.head?_cons] at hx hy
          rw [← hx, ← hy]; exact hstep
        · intro q hq2
          rcases List.mem_append.mp hq2 with hq2 | hq2
          · exact hr.mem q hq2
          · rw [List.mem_singleton] at hq2; rw [hq2]; exact hp
        · rw [List.map_append, hr.deps, List.map_singleton, hdep, List.range_succ (n := dep (s.parent p) + 1)]
        · intro q hq2 hqp
          rcases List.mem_append.mp hq2 with hq2 | hq2
          · by_cases hqq : q = s.parent p
            · rw [hqq]; exact hnx
            · exact hr.inner q hq2 hqq
          · rw [List.mem_singleton] at hq2; exact absurd hq2 hqp

/-- A walk of `k` moves from `start` either ends on a queued coordinate of
depth at most `k` or has met a coordinate that is not yet expanded, of depth
at most `k`. -/
theorem Inv.walk_cases {grid : List GoString} {start : Position} {s : Search}
    {dep : Position → Nat} {pre post : List Position}
    (h : Inv grid start s dep pre post) :
    ∀ (v : Position) (k : Nat), Walk grid start v k →
      (v ∈ s.queue ∧ dep v ≤ k) ∨ ∃ w ∈ post, dep w ≤ k := by
  intro v k hw
  induction hw with
  | here => exact Or.inl ⟨h.start_mem, by rw [h.dep_start]⟩
  | move hw hstep ih =>
    rename_i v w k
    rcases ih with ⟨hv, hk⟩ | ⟨u, hu, hk⟩
    · rw [h.queue_eq] at hv
      rcases List.mem_append.mp hv with hv | hv
      · obtain ⟨h1, h2⟩ := h.closed v hv w hstep
        exact Or.inl ⟨h1, by omega⟩
      · exact Or.inr ⟨v, hv, by omega⟩
    · exact Or.inr ⟨u, hu, by omega⟩

/-- When the search stops without an exit, no walk from `start` ends on an
exit. -/
theorem Stopped.no_exit {grid : List GoString} {start : Position} {s : Search}
    {dep : Position → Nat} {pre post : List Position}
    (h : Stopped grid start s dep pre post) (hf : s.found ≠ true) :
    ∀ (a : Position) (k : Nat), Walk grid start a k → ¬ IsExit grid a := by
  intro a k hw hex
  have hpost := h.notFound hf
  rcases h.inv.walk_cases a k hw with ⟨ha, _⟩ | ⟨w, hw2, _⟩
  · rw [h.inv.queue_eq, hpost, List.append_nil] at ha
    exact h.inv.noexit a ha hex
  · rw [hpost] at hw2; simp at hw2

/-- When the search stops on an exit, no exit is nearer to `start` than the
depth of that exit. -/
theorem Stopped.exit_min {grid : List GoString} {start : Position} {s : Search}
    {dep : Position → Nat} {pre post : List Position}
    (h : Stopped grid start s dep pre post) (hf : s.found = true) :
    ∀ (a : Position) (k : Nat), IsExit grid a → Walk grid start a k → dep s.exit ≤ k := by
  intro a k hex hw
  obtain ⟨_, rest, hpost⟩ := h.found hf
  have hinv := h.inv
  rw [hpost] at hinv
  have hle : ∀ w ∈ s.exit :: rest, dep s.exit ≤ dep w := by
    intro w hw2
    rcases List.mem_cons.mp hw2 with hw2 | hw2
    · rw [hw2]
    · exact hinv.curr_le w hw2
  rcases hinv.walk_cases a k hw with ⟨ha, hk⟩ | ⟨w, hw2, hk⟩
  · rw [hinv.queue_eq] at ha
    rcases List.mem_append.mp ha with ha | ha
    · exact absurd hex (hinv.noexit a ha)
    · exact (hle a ha).trans hk
  · exact (hle w hw2).trans hk

theorem Stopped.exit_mem {grid : List GoString} {start : Position} {s : Search}
    {dep : Position → Nat} {pre post : List Position}
    (h : Stopped grid start s dep pre post) (hf : s.found = true) : s.exit ∈ s.queue := by
  obtain ⟨_, rest, hpost⟩ := h.found hf
  rw [h.inv.queue_eq, hpost]; simp

/-- The run of `bfs` on a rectangular grid from an in-bounds start: the
search stops in a state that satisfies the invariant, and `bfs` returns nil
when no exit was found and a route to the exit when one was. -/
theorem bfs_run (maze : Maze) (hr : Rectangular maze.grid)
    (hs : InBounds maze.grid maze.start) :
    ∃ s dep pre post, Stopped maze.grid maze.start s dep pre post ∧
      ((s.found ≠ true ∧ bfs maze = .ok []) ∨
        (s.found = true ∧ ∃ path, bfs maze = .ok path
          ∧ Route maze.grid maze.start s.queue dep s.exit path)) := by
  obtain ⟨s, dep, pre, post, hsearch, hst⟩ :=
    search_inv hr (maze.grid.length * width maze.grid + 1) (initial maze.start)
      (fun _ => 0) [] [maze.start] (initial_inv hs) rfl rfl (by simp)
  refine ⟨s, dep, pre, post, hst, ?_⟩
  by_cases hf : s.found = true
  · right
    have hmem := hst.exit_mem hf
    have hlt := hst.inv.dep_lt _ hmem
    have hlen := hst.inv.length_le hr
    obtain ⟨l, hl, hroute⟩ :=
      walkBack_inv hst.inv (maze.grid.length * width maze.grid + 1) s.exit [] hmem (by omega)
    refine ⟨hf, (l ++ [maze.start]).reverse, ?_, hroute⟩
    simp only [bfs, bfsFuel, hsearch, hf, if_true, hl, List.nil_append]
  · left
    refine ⟨hf, ?_⟩
    simp [bfs, bfsFuel, hsearch, hf]

/-! ## Fuel -/

/-- More fuel does not change an outcome of the search loop that is not
`outOfFuel`. -/
theorem search_succ (grid : List GoString) :
    ∀ (n : Nat) (s : Search) (r : Outcome Search),
      search grid n s = r → r ≠ .outOfFuel → search grid (n + 1) s = r := by
  intro n
  induction n with
  | zero =>
    intro s r h hr
    simp only [search] at h
    by_cases hlt : s.head < s.queue.length
    · rw [if_pos hlt] at h; exact absurd h.symm hr
    · rw [if_neg hlt] at h
      have hnone : s.queue[s.head]? = none := List.getElem?_eq_none (by omega)
      simp only [search, hnone]; exact h
  | succ n ih =>
    intro s r h hr
    rw [search] at h ⊢
    cases hq : s.queue[s.head]? with
    | none => rw [hq] at h; exact h
    | some curr =>
      rw [hq] at h
      simp only at h ⊢
      cases hc : cellAt grid curr with
      | none => rw [hc] at h; exact h
      | some c =>
        rw [hc] at h
        simp only at h ⊢
        by_cases hex : c = exitByte
        · rw [if_pos hex] at h ⊢; exact h
        · rw [if_neg hex] at h ⊢
          cases he : expand grid curr directions { s with head := s.head + 1 } with
          | ok s1 =>
            rw [he] at h
            simp only at h ⊢
            exact ih s1 r h hr
          | panic => rw [he] at h; exact h
          | outOfFuel => rw [he] at h; exact h

/-- More fuel does not change an outcome of the parent walk that is not
`outOfFuel`. -/
theorem walkBack_succ (start : Position) (parent : Position → Position) :
    ∀ (n : Nat) (curr : Position) (path : List Position) (r : Outcome (List Position)),
      walkBack start parent n curr path = r → r ≠ .outOfFuel →
      walkBack start parent (n + 1) curr path = r := by
  intro n
  induction n with
  | zero =>
    intro curr path r h hr
    simp only [walkBack] at h ⊢
    by_cases hs : curr = start
    · rw [if_pos hs] at h ⊢; exact h
    · rw [if_neg hs] at h; exact absurd h.symm hr
  | succ n ih =>
    intro curr path r h hr
    rw [walkBack] at h ⊢
    by_cases hs : curr = start
    · rw [if_pos hs] at h ⊢; exact h
    · rw [if_neg hs] at h ⊢
      exact ih _ _ r h hr

/-- More fuel does not change an outcome of `bfs` that is not `outOfFuel`:
the result of `bfs` does not depend on the fuel that its loops are given,
once that is enough. -/
theorem bfsFuel_le (maze : Maze) (n : Nat) (h : bfsFuel n maze ≠ .outOfFuel) :
    ∀ m, n ≤ m → bfsFuel m maze = bfsFuel n maze := by
  have step : ∀ k, bfsFuel k maze ≠ .outOfFuel → bfsFuel (k + 1) maze = bfsFuel k maze := by
    intro k hk
    unfold bfsFuel at hk ⊢
    cases hs : search maze.grid k (initial maze.start) with
    | ok s =>
      rw [hs] at hk
      rw [search_succ maze.grid k _ _ hs (by simp)]
      simp only at hk ⊢
      by_cases hf : s.found = true
      · rw [if_pos hf] at hk
        rw [if_pos hf, if_pos hf]
        cases hw : walkBack maze.start s.parent k s.exit [] with
        | ok path => rw [walkBack_succ _ _ k _ _ _ hw (by simp)]
        | panic => rw [walkBack_succ _ _ k _ _ _ hw (by simp)]
        | outOfFuel => rw [hw] at hk; exact absurd rfl hk
      · rw [if_neg hf, if_neg hf]
    | panic => rw [search_succ maze.grid k _ _ hs (by simp)]
    | outOfFuel => rw [hs] at hk; exact absurd rfl hk
  intro m hm
  induction m with
  | zero =>
    have : n = 0 := by omega
    rw [this]
  | succ m ih =>
    by_cases hnm : n = m + 1
    · rw [hnm]
    · have hle : n ≤ m := by omega
      have e := ih hle
      rw [step m (by rw [e]; exact h), e]

/-! ## Properties of `bfs` -/

theorem chain_getElem {α : Type} {R : α → α → Prop} :
    ∀ (l : List α), l.Chain' R → ∀ (i : Nat) (p q : α),
      l[i]? = some p → l[i + 1]? = some q → R p q := by
  intro l
  induction l with
  | nil => intro _ i p q hp; simp at hp
  | cons a t ih =>
    intro hc i p q hp hq
    cases t with
    | nil => simp at hq
    | cons b t =>
      rw [List.chain'_cons] at hc
      cases i with
      | zero =>
        simp only [List.getElem?_cons_zero, Option.some.injEq, zero_add,
          List.getElem?_cons_succ] at hp hq
        rw [← hp, ← hq]; exact hc.1
      | succ i =>
        rw [List.getElem?_cons_succ] at hp hq
        exact ih hc.2 i p q hp hq

theorem cellAt_mem {grid : List GoString} {p : Position} {c : Nat}
    (h : cellAt grid p = some c) : ∃ row ∈ grid, c ∈ row := by
  unfold cellAt at h
  cases hrow : index grid p.Y with
  | none => simp [hrow] at h
  | some row =>
    rw [hrow, Option.some_bind] at h
    exact ⟨row, (index_lt hrow).2.2, (index_lt h).2.2⟩

/-- When `bfs` finds an exit, the number of moves of its path is the least
number of moves to any exit. -/
theorem Stopped.minExit {grid : List GoString} {start : Position} {s : Search}
    {dep : Position → Nat} {pre post : List Position}
    (h : Stopped grid start s dep pre post) (hf : s.found = true) :
    MinExitMoves grid start (dep s.exit) :=
  ⟨⟨s.exit, (h.found hf).1, h.inv.walk _ (h.exit_mem hf)⟩, h.exit_min hf⟩

theorem MinExitMoves.layer {grid : List GoString} {start : Position} {m : Nat}
    (h : MinExitMoves grid start m) : NearestExitLayer grid start m := by
  obtain ⟨⟨a, ha, hw⟩, hmin⟩ := h
  exact ⟨⟨a, ha, hw, fun j hj => hmin a j ha hj⟩, fun b k hb hk => hmin b k hb hk.1⟩

/-- C1: on a rectangular grid, from a start that is in bounds and not a
wall, when some cell holding `'A'` is reachable by orthogonal moves through
in-bounds cells that are not walls, `bfs` returns a non-empty path whose
number of moves, `len(path) - 1`, is the least number of moves from the
start to any reachable `'A'` cell; equivalently `len(path)` is the number
of breadth-first layers up to and including the layer of the nearest
exit. -/
theorem bfs_shortest_path (maze : Maze) (hr : Rectangular maze.grid)
    (hs : InBounds maze.grid maze.start)
    (_hw : cellAt maze.grid maze.start ≠ some wallByte)
    (hreach : ∃ a k, IsExit maze.grid a ∧ Walk maze.grid maze.start a k) :
    ∃ path, bfs maze = .ok path ∧ path ≠ []
      ∧ MinExitMoves maze.grid maze.start (path.length - 1)
      ∧ ∃ m, NearestExitLayer maze.grid maze.start m ∧ path.length = m + 1 := by
  obtain ⟨s, dep, pre, post, hst, hcase⟩ := bfs_run maze hr hs
  rcases hcase with ⟨hf, _⟩ | ⟨hf, path, hb, hroute⟩
  · obtain ⟨a, k, ha, hw⟩ := hreach
    exact absurd ha (hst.no_exit hf a k hw)
  · have hlen := hroute.length_eq
    have hmin := hst.minExit hf
    refine ⟨path, hb, ?_, ?_, dep s.exit, hmin.layer, hlen⟩
    · intro e; rw [e] at hlen; simp at hlen
    · rw [hlen]; exact hmin

/-- The hypotheses of C1 hold on the maze with two equally short routes,
where the path has two moves. -/
theorem bfs_shortest_path_witness :
    ∃ path, bfs mazeTie = .ok path ∧ path ≠ []
      ∧ MinExitMoves mazeTie.grid mazeTie.start (path.length - 1)
      ∧ ∃ m, NearestExitLayer mazeTie.grid mazeTie.start m ∧ path.length = m + 1 :=
  bfs_shortest_path mazeTie (by decide) (by decide) (by decide)
    ⟨⟨2, 2⟩, 2, by decide, Walk.move (Walk.move (v := ⟨1, 1⟩) (w := ⟨2, 1⟩) Walk.here
      (by decide)) (by decide)⟩

/-- C2: on a rectangular grid, from an in-bounds start from which no cell
holding `'A'` is reachable by orthogonal moves through in-bounds cells that
are not walls, `bfs` returns nil (length 0), without a panic. -/
theorem bfs_no_path (maze : Maze) (hr : Rectangular maze.grid)
    (hs : InBounds maze.grid maze.start)
    (hno : ∀ a k, Walk maze.grid maze.start a k → ¬ IsExit maze.grid a) :
    bfs maze = .ok [] := by
  obtain ⟨s, dep, pre, post, hst, hcase⟩ := bfs_run maze hr hs
  rcases hcase with ⟨_, hb⟩ | ⟨hf, _, _, _⟩
  · exact hb
  · exact absurd (hst.found hf).1 (hno _ _ (hst.inv.walk _ (hst.exit_mem hf)))

/-- The walled-in start of the example in C2: no cell of that grid holds
`'A'`, and `bfs` returns nil. -/
theorem bfs_no_path_witness : bfs mazeClosed = .ok [] :=
  bfs_no_path mazeClosed (by decide) (by decide) (by
    intro a k _ hex
    obtain ⟨row, hrow, hc⟩ := cellAt_mem hex
    revert hc
    revert row
    decide)

/-- C3: on a rectangular grid with an in-bounds start, a non-empty path
returned by `bfs` has `maze.start` as its first element and ends on a
coordinate whose cell holds the exit marker `'A'`. -/
theorem bfs_path_ends (maze : Maze) (hr : Rectangular maze.grid)
    (hs : InBounds maze.grid maze.start) (path : List Position)
    (hb : bfs maze = .ok path) (hne : path ≠ []) :
    path.head? = some maze.start
      ∧ ∃ e, path.getLast? = some e ∧ cellAt maze.grid e = some exitByte := by
  obtain ⟨s, dep, pre, post, hst, hcase⟩ := bfs_run maze hr hs
  rcases hcase with ⟨_, hb2⟩ | ⟨hf, path2, hb2, hroute⟩
  · rw [hb2] at hb
    cases hb
    exact absurd rfl hne
  · rw [hb2] at hb
    cases hb
    exact ⟨hroute.first, s.exit, hroute.last, (hst.found hf).1⟩

/-- The path of the maze with two equally short routes begins at the start
and ends on the exit. -/
theorem bfs_path_ends_witness :
    [(⟨1, 1⟩ : Position), ⟨2, 1⟩, ⟨2, 2⟩].head? = some mazeTie.start
      ∧ ∃ e, [(⟨1, 1⟩ : Position), ⟨2, 1⟩, ⟨2, 2⟩].getLast? = some e
        ∧ cellAt mazeTie.grid e = some exitByte :=
  bfs_path_ends mazeTie (by decide) (by decide) [⟨1, 1⟩, ⟨2, 1⟩, ⟨2, 2⟩] (by decide)
    (by decide)

/-- C4: on a rectangular grid with an in-bounds start, any two consecutive
coordinates `p`, `q` of a path returned by `bfs` satisfy
`|p.X - q.X| + |p.Y - q.Y| = 1`. -/
theorem bfs_path_steps (maze : Maze) (hr : Rectangular maze.grid)
    (hs : InBounds maze.grid maze.start) (path : List Position)
    (hb : bfs maze = .ok path) (i : Nat) (p q : Position)
    (hp : path[i]? = some p) (hq : path[i + 1]? = some q) :
    |p.X - q.X| + |p.Y - q.Y| = 1 := by
  obtain ⟨s, dep, pre, post, hst, hcase⟩ := bfs_run maze hr hs
  rcases hcase with ⟨_, hb2⟩ | ⟨hf, path2, hb2, hroute⟩
  · rw [hb2] at hb
    cases hb
    simp at hp
  · rw [hb2] at hb
    cases hb
    exact (chain_getElem path hroute.chain i p q hp hq).1

/-- The second and third coordinate of the path of the maze with two
equally short routes are one step apart. -/
theorem bfs_path_steps_witness :
    |(⟨2, 1⟩ : Position).X - (⟨2, 2⟩ : Position).X|
      + |(⟨2, 1⟩ : Position).Y - (⟨2, 2⟩ : Position).Y| = 1 :=
  bfs_path_steps mazeTie (by decide) (by decide) [⟨1, 1⟩, ⟨2, 1⟩, ⟨2, 2⟩] (by decide) 1
    ⟨2, 1⟩ ⟨2, 2⟩ (by decide) (by decide)

/-- C5: for every grid and every in-bounds start whose own cell holds
`'A'`, `bfs` returns exactly the one-element path `[start]`, whatever the
rest of the grid is: the exit test on the popped cell comes before any
neighbour is looked at. -/
theorem bfs_start_on_exit (maze : Maze)
    (hex : cellAt maze.grid maze.start = some exitByte) :
    bfs maze = .ok [maze.start] := by
  simp [bfs, bfsFuel, search, initial, hex, walkBack]

/-- A start on the exit, with a wall beside it. -/
theorem bfs_start_on_exit_witness : bfs mazeOnExit = .ok [mazeOnExit.start] :=
  bfs_start_on_exit mazeOnExit (by decide)

/-- C6: on the rows `["###", "#S#", "#A#", "###"]` with start (1,1), `bfs`
returns exactly the path `[(1,1), (1,2)]`, of length 2. -/
theorem bfs_mazeDown :
    bfs mazeDown = .ok [⟨1, 1⟩, ⟨1, 2⟩]
      ∧ ([(⟨1, 1⟩ : Position), ⟨1, 2⟩]).length = 2 := by
  decide

/-- C7, as the claim states it, fails: from the start (0,0), which is a
wall of the row `["#A"]`, `bfs` returns an ordinary path, and from a start
on a wall of a grid of walls it returns nil. -/
theorem bfs_wall_start_counterexample :
    cellAt mazeWallStart.grid mazeWallStart.start = some wallByte
      ∧ bfs mazeWallStart = .ok [⟨0, 0⟩, ⟨1, 0⟩]
      ∧ cellAt [[35, 35], [35, 35]] ⟨0, 0⟩ = some wallByte
      ∧ bfs ⟨⟨0, 0⟩, [[35, 35], [35, 35]]⟩ = .ok [] := by
  decide

/-- C7, amended: `bfs` does not validate its start.  A start that is out
of bounds makes it panic (index out of range) on the first iteration, which
is distinct from nil.  A start that is in bounds of a rectangular grid and
on a wall is searched from like any other cell: `bfs` returns without an
error, nil exactly when no exit is reachable from the start, and otherwise
a path that begins at the start. -/
theorem bfs_invalid_start (maze : Maze) :
    (¬ InBounds maze.grid maze.start → bfs maze = .panic)
      ∧ (Rectangular maze.grid → InBounds maze.grid maze.start →
          cellAt maze.grid maze.start = some wallByte →
          ∃ path, bfs maze = .ok path
            ∧ (path = [] ↔ ∀ a k, Walk maze.grid maze.start a k → ¬ IsExit maze.grid a)
            ∧ (path ≠ [] → path.head? = some maze.start)) := by
  constructor
  · intro h
    have hnone : cellAt maze.grid maze.start = none := by
      unfold InBounds at h
      cases hc : cellAt maze.grid maze.start with
      | none => rfl
      | some c => rw [hc] at h; simp at h
    simp [bfs, bfsFuel, search, initial, hnone]
  · intro hr hs _
    obtain ⟨s, dep, pre, post, hst, hcase⟩ := bfs_run maze hr hs
    rcases hcase with ⟨hf, hb⟩ | ⟨hf, path, hb, hroute⟩
    · exact ⟨[], hb, ⟨fun _ => hst.no_exit hf, fun _ => rfl⟩, fun h => absurd rfl h⟩
    · have hne : path ≠ [] := by
        intro e
        have := hroute.length_eq
        rw [e] at this
        simp at this
      refine ⟨path, hb, ⟨fun e => absurd e hne, ?_⟩, fun _ => hroute.first⟩
      intro hno
      exact absurd (hst.found hf).1 (hno _ _ (hst.inv.walk _ (hst.exit_mem hf)))

/-- Both parts of the amended C7 at concrete mazes: the start (5,0) outside
the row `["#A"]` panics, and the start (0,0) on its wall yields a path. -/
theorem bfs_invalid_start_witness :
    bfs mazeOutside = .panic
      ∧ ∃ path, bfs mazeWallStart = .ok path
        ∧ (path = [] ↔ ∀ a k, Walk mazeWallStart.grid mazeWallStart.start a k →
            ¬ IsExit mazeWallStart.grid a)
        ∧ (path ≠ [] → path.head? = some mazeWallStart.start) :=
  ⟨(bfs_invalid_start mazeOutside).1 (by decide),
    (bfs_invalid_start mazeWallStart).2 (by decide) (by decide) (by decide)⟩

/-- C8 fails on ragged grids: the column test of `bfs` uses `len(grid[0])`
for every row.  On the rows `["S ", "A"]` the neighbour (1,1) passes the
test and reading it panics, although the exit (0,1) is one move from the
start; on the rows `["S", " A"]` the cell (1,1), which is inside its own
row, is excluded, so `bfs` returns nil although that cell holds the exit. -/
theorem bfs_ragged_rows :
    (∀ row ∈ mazeShortRow.grid, row ≠ []) ∧ InBounds mazeShortRow.grid mazeShortRow.start
      ∧ IsExit mazeShortRow.grid ⟨0, 1⟩ ∧ bfs mazeShortRow = .panic
      ∧ (∀ row ∈ mazeLongRow.grid, row ≠ []) ∧ InBounds mazeLongRow.grid mazeLongRow.start
      ∧ IsExit mazeLongRow.grid ⟨1, 1⟩ ∧ Walk mazeLongRow.grid mazeLongRow.start ⟨1, 1⟩ 2
      ∧ bfs mazeLongRow = .ok [] :=
  ⟨by decide, by decide, by decide, by decide, by decide, by decide, by decide,
    Walk.move (Walk.move (v := ⟨0, 0⟩) (w := ⟨0, 1⟩) Walk.here (by decide)) (by decide),
    by decide⟩

/-! ## UTF-8 round trip -/

theorem decodeRune_valid (bs : GoString) : ValidRune (decodeRune bs).1 := by
  unfold ValidRune decodeRune
  repeat' split
  all_goals simp only [runeError]
  all_goals omega

theorem decodeRune_encodeRune (r : Nat) (hv : ValidRune r) (rest : GoString) :
    decodeRune (encodeRune r ++ rest) = (r, (encodeRune r).length) := by
  unfold ValidRune at hv
  unfold encodeRune
  split_ifs with h1 h2 h3 h4
  · have a1 : r < 128 := by omega
    simp only [decodeRune, List.cons_append, List.nil_append, a1, if_true,
      List.length_cons, List.length_nil]
  · have a1 : ¬ (192 + r / 64 < 128) := by omega
    have a2 : 192 ≤ 192 + r / 64 ∧ 192 + r / 64 < 224 := by omega
    have a3 : isCont (128 + r % 64)
        ∧ 127 < (192 + r / 64) % 32 * 64 + (128 + r % 64) % 64 := by
      unfold isCont; omega
    have a4 : (192 + r / 64) % 32 * 64 + (128 + r % 64) % 64 = r := by omega
    simp only [decodeRune, List.cons_append, List.nil_append, a1, a2, and_self, if_true,
      if_false, List.length_cons, List.length_nil]
    rw [if_pos a3, a4]
  · omega
  · have a1 : ¬ (224 + r / 4096 < 128) := by omega
    have a2 : ¬ (192 ≤ 224 + r / 4096 ∧ 224 + r / 4096 < 224) := by omega
    have a3 : 224 ≤ 224 + r / 4096 ∧ 224 + r / 4096 < 240 := by omega
    have a4 : (224 + r / 4096) % 16 * 4096 + (128 + r / 64 % 64) % 64 * 64
        + (128 + r % 64) % 64 = r := by omega
    have a5 : isCont (128 + r / 64 % 64) ∧ isCont (128 + r % 64)
        ∧ 2047 < (224 + r / 4096) % 16 * 4096 + (128 + r / 64 % 64) % 64 * 64
          + (128 + r % 64) % 64
        ∧ ¬ (55296 ≤ (224 + r / 4096) % 16 * 4096 + (128 + r / 64 % 64) % 64 * 64
              + (128 + r % 64) % 64
            ∧ (224 + r / 4096) % 16 * 4096 + (128 + r / 64 % 64) % 64 * 64
              + (128 + r % 64) % 64 ≤ 57343) := by
      unfold isCont; omega
    simp only [decodeRune, List.cons_append, List.nil_append, a1, a2, a3, and_self,
      if_true, if_false, List.length_cons, List.length_nil]
    rw [if_pos a5, a4]
  · have a1 : ¬ (240 + r / 262144 < 128) := by omega
    have a2 : ¬ (192 ≤ 240 + r / 262144 ∧ 240 + r / 262144 < 224) := by omega
    have a3 : ¬ (224 ≤ 240 + r / 262144 ∧ 240 + r / 262144 < 240) := by omega
    have a3b : 240 ≤ 240 + r / 262144 ∧ 240 + r / 262144 < 248 := by omega
    have a4 : (240 + r / 262144) % 8 * 262144 + (128 + r / 4096 % 64) % 64 * 4096
        + (128 + r / 64 % 64) % 64 * 64 + (128 + r % 64) % 64 = r := by omega
    have a5 : isCont (128 + r / 4096 % 64) ∧ isCont (128 + r / 64 % 64)
        ∧ isCont (128 + r % 64)
        ∧ 65535 < (240 + r / 262144) % 8 * 262144 + (128 + r / 4096 % 64) % 64 * 4096
          + (128 + r / 64 % 64) % 64 * 64 + (128 + r % 64) % 64
        ∧ (240 + r / 262144) % 8 * 262144 + (128 + r / 4096 % 64) % 64 * 4096
          + (128 + r / 64 % 64) % 64 * 64 + (128 + r % 64) % 64 ≤ 1114111 := by
      unfold isCont; omega
    simp only [decodeRune, List.cons_append, List.nil_append, a1, a2, a3, a3b, and_self,
      if_true, if_false, List.length_cons, List.length_nil]
    rw [if_pos a5, a4]

theorem encodeRune_ne_nil (r : Nat) : encodeRune r ≠ [] := by
  unfold encodeRune
  split_ifs <;> simp

theorem runesFrom_valid : ∀ (bs : GoString) (k : Nat), ∀ r ∈ runesFrom k bs, ValidRune r := by
  intro bs
  induction bs with
  | nil => intro k r hr; cases k <;> simp [runesFrom] at hr
  | cons b bs ih =>
    intro k r hr
    cases k with
    | zero =>
      simp only [runesFrom, List.mem_cons] at hr
      rcases hr with hr | hr
      · rw [hr]; exact decodeRune_valid _
      · exact ih _ r hr
    | succ k =>
      simp only [runesFrom] at hr
      exact ih k r hr

theorem runesFrom_drop : ∀ (bs : GoString) (k : Nat),
    runesFrom k bs = runesFrom 0 (bs.drop k) := by
  intro bs
  induction bs with
  | nil => intro k; cases k <;> simp [runesFrom]
  | cons b bs ih =>
    intro k
    cases k with
    | zero => simp
    | succ k => simp only [runesFrom, List.drop_succ_cons]; exact ih k

/-- Decoding the encoding of scalar values gives them back. -/
theorem runes_encode : ∀ (rs : List Nat), (∀ r ∈ rs, ValidRune r) →
    runes (encode rs) = rs := by
  intro rs
  induction rs with
  | nil => intro _; rfl
  | cons r rs ih =>
    intro hv
    have hr := hv r (List.mem_cons_self _ _)
    have hdec := decodeRune_encodeRune r hr (encode rs)
    have hne := encodeRune_ne_nil r
    unfold runes at ih ⊢
    show runesFrom 0 (encodeRune r ++ encode rs) = r :: rs
    cases he : encodeRune r with
    | nil => exact absurd he hne
    | cons b tl =>
      rw [he] at hdec
      simp only [List.cons_append] at hdec ⊢
      simp only [runesFrom, hdec, List.length_cons, Nat.add_sub_cancel]
      rw [runesFrom_drop, List.drop_left, ih (fun x hx => hv x (List.mem_cons_of_mem _ hx))]

theorem runes_valid (s : GoString) : ∀ r ∈ runes s, ValidRune r :=
  runesFrom_valid s 0

/-! ## The marking loop -/

/-- After `mazeCopy[p.Y][p.X] = c` with valid indices, the cell `p` holds
`c` and every other cell is as before. -/
theorem cellAt_setCell {rows : List (List Nat)} {p : Position} {c0 : Nat}
    (hp : cellAt rows p = some c0) (c : Nat) (q : Position) :
    cellAt (setCell rows p c) q = if q = p then some c else cellAt rows q := by
  obtain ⟨px, py⟩ := p
  obtain ⟨qx, qy⟩ := q
  unfold cellAt at hp
  cases hrow : index rows py with
  | none => simp [hrow] at hp
  | some row =>
    simp only [hrow, Option.some_bind] at hp
    have hy := index_lt hrow
    have hx := index_lt hp
    have hrow2 := (index_eq_some.mp hrow).2
    have hgetD : rows.getD py.toNat [] = row := by
      rw [List.getD_eq_getElem?_getD, hrow2]; rfl
    have hylt : py.toNat < rows.length := by omega
    have hxlt : px.toNat < row.length := by omega
    simp only [cellAt, setCell, hgetD, Position.mk.injEq]
    by_cases hqy : qy < 0
    · have : ¬ (qx = px ∧ qy = py) := by omega
      simp [index, hqy, this]
    · by_cases hyy : py.toNat = qy.toNat
      · have hyeq : qy = py := by omega
        subst hyeq
        have h1 : index (rows.set qy.toNat (row.set px.toNat c)) qy
            = some (row.set px.toNat c) := by
          rw [index_eq_some]
          exact ⟨hy.1, List.getElem?_set_self hylt⟩
        rw [h1, hrow, Option.some_bind, Option.some_bind]
        by_cases hqx : qx < 0
        · have hne : ¬ (qx = px ∧ qy = qy) := by omega
          rw [if_neg hne]
          simp [index, hqx]
        · by_cases hxx : px.toNat = qx.toNat
          · have hxeq : qx = px := by omega
            subst hxeq
            rw [if_pos ⟨rfl, rfl⟩, index_eq_some]
            exact ⟨hx.1, List.getElem?_set_self hxlt⟩
          · have hne : ¬ (qx = px ∧ qy = qy) := by omega
            rw [if_neg hne]
            simp only [index, hqx, if_false]
            exact List.getElem?_set_ne hxx
      · have hne : ¬ (qx = px ∧ qy = py) := by omega
        rw [if_neg hne]
        have h1 : index (rows.set py.toNat (row.set px.toNat c)) qy = index rows qy := by
          simp only [index, hqy, if_false]
          exact List.getElem?_set_ne hyy
        rw [h1]

/-- The assignment `mazeCopy[p.Y][p.X] = c` changes no row length. -/
theorem setCell_lengths (rows : List (List Nat)) (p : Position) (c : Nat) :
    (setCell rows p c).map List.length = rows.map List.length := by
  unfold setCell
  apply List.ext_getElem?
  intro n
  simp only [List.getElem?_map, List.getElem?_set]
  by_cases hn : p.Y.toNat = n
  · subst hn
    simp only [if_true]
    by_cases hlt : p.Y.toNat < rows.length
    · simp [hlt, List.getD_eq_getElem?_getD, List.getElem?_eq_getElem hlt]
    · have : rows[p.Y.toNat]? = none := List.getElem?_eq_none (by omega)
      simp [hlt, this]
  · simp [hn]

theorem setCell_all (P : Nat → Prop) {rows : List (List Nat)} (p : Position) {c : Nat}
    (hc : P c) (h : ∀ row ∈ rows, ∀ r ∈ row, P r) :
    ∀ row ∈ setCell rows p c, ∀ r ∈ row, P r := by
  intro row hrow r hr
  unfold setCell at hrow
  rcases List.mem_or_eq_of_mem_set hrow with hrow | hrow
  · exact h row hrow r hr
  · rw [hrow] at hr
    rcases List.mem_or_eq_of_mem_set hr with hr | hr
    · rw [List.getD_eq_getElem?_getD] at hr
      cases hget : rows[p.Y.toNat]? with
      | none => rw [hget] at hr; simp at hr
      | some row0 =>
        rw [hget] at hr
        exact h row0 (List.getElem?_mem hget) r hr
    · rw [hr]; exact hc

/-- The marking loop on rows in which every coordinate of the path is a
valid index pair: it does not panic, keeps every row length, leaves in each
cell what `marked` says, and keeps every property of the runes that `'.'`
has. -/
theorem mark_spec : ∀ (path : List Position) (rows : List (List Nat)),
    (∀ p ∈ path, InBounds rows p) →
    ∃ out, mark rows path = .ok out
      ∧ out.map List.length = rows.map List.length
      ∧ (∀ q, cellAt out q = (cellAt rows q).map (marked path q))
      ∧ (∀ P : Nat → Prop, P dotRune → (∀ row ∈ rows, ∀ r ∈ row, P r) →
          ∀ row ∈ out, ∀ r ∈ row, P r) := by
  intro path
  induction path with
  | nil =>
    intro rows _
    refine ⟨rows, rfl, rfl, ?_, fun _ _ h => h⟩
    intro q
    cases cellAt rows q <;> simp [marked]
  | cons pos rest ih =>
    intro rows hin
    obtain ⟨c, hc⟩ := cellAt_of_inBounds (hin pos (List.mem_cons_self _ _))
    by_cases hm : c ≠ startRune ∧ c ≠ exitRune
    · have hin2 : ∀ p ∈ rest, InBounds (setCell rows pos dotRune) p := by
        intro p hp
        have := hin p (List.mem_cons_of_mem _ hp)
        unfold InBounds at this ⊢
        rw [cellAt_setCell hc]
        by_cases hpp : p = pos
        · simp [hpp]
        · simpa [hpp] using this
      obtain ⟨out, ho, hlen, hcell, hval⟩ := ih (setCell rows pos dotRune) hin2
      refine ⟨out, ?_, ?_, ?_, ?_⟩
      · rw [mark]; simp only [hc]; rw [if_pos hm]; exact ho
      · rw [hlen, setCell_lengths]
      · intro q
        rw [hcell q, cellAt_setCell hc]
        by_cases hqp : q = pos
        · subst hqp
          simp [hc, marked, hm.1, hm.2]
        · cases cellAt rows q <;> simp [hqp, marked]
      · intro P hP h
        exact hval P hP (setCell_all P pos hP h)
    · obtain ⟨out, ho, hlen, hcell, hval⟩ :=
        ih rows (fun p hp => hin p (List.mem_cons_of_mem _ hp))
      refine ⟨out, ?_, hlen, ?_, hval⟩
      · rw [mark]; simp only [hc]; rw [if_neg hm]; exact ho
      · intro q
        rw [hcell q]
        by_cases hqp : q = pos
        · subst hqp
          have : ¬ (c ≠ startRune ∧ c ≠ exitRune ∧ q ∈ rest) := fun h => hm ⟨h.1, h.2.1⟩
          have h2 : ¬ (c ≠ startRune ∧ c ≠ exitRune ∧ q ∈ q :: rest) :=
            fun h => hm ⟨h.1, h.2.1⟩
          simp only [hc, Option.map_some', marked, this, h2, if_false]
        · cases cellAt rows q <;> simp [hqp, marked]

theorem runesFrom_ascii : ∀ (bs : GoString), (∀ b ∈ bs, b < 128) → runesFrom 0 bs = bs := by
  intro bs
  induction bs with
  | nil => intro _; rfl
  | cons b bs ih =>
    intro h
    have hb : b < 128 := h b (List.mem_cons_self _ _)
    simp only [runesFrom, decodeRune, hb, if_true, Nat.sub_self]
    rw [ih (fun x hx => h x (List.mem_cons_of_mem _ hx))]

theorem encode_ascii : ∀ (rs : List Nat), (∀ r ∈ rs, r < 128) → encode rs = rs := by
  intro rs
  induction rs with
  | nil => intro _; rfl
  | cons r rs ih =>
    intro h
    have hr : r ≤ 127 := Nat.lt_succ_iff.mp (h r (List.mem_cons_self _ _))
    simp only [encode, encodeRune, hr, if_true, List.singleton_append]
    rw [ih (fun x hx => h x (List.mem_cons_of_mem _ hx))]

/-- The function `markMap` on a grid in which every coordinate of the path
addresses a character: it does not panic, keeps the number of characters of
every row (and, on a grid of ASCII bytes, the number of bytes), and leaves
in each cell what `marked` says. -/
theorem markMap_spec (grid : List GoString) (path : List Position)
    (hin : ∀ p ∈ path, InBounds (grid.map runes) p) :
    ∃ out, markMap grid path = .ok out
      ∧ out.map (fun row => (runes row).length) = grid.map (fun row => (runes row).length)
      ∧ (∀ q, charAt out q = (charAt grid q).map (marked path q))
      ∧ ((∀ row ∈ grid, ∀ b ∈ row, b < 128) → out.map List.length = grid.map List.length) := by
  obtain ⟨out, ho, hlen, hcell, hval⟩ := mark_spec path (grid.map runes) hin
  have hvalid : ∀ row ∈ out, ∀ r ∈ row, ValidRune r := by
    apply hval ValidRune (Or.inl (by decide))
    intro row hrow r hr
    obtain ⟨s, _, rfl⟩ := List.mem_map.mp hrow
    exact runes_valid s r hr
  have hback : (out.map encode).map runes = out := by
    rw [List.map_map]
    conv_rhs => rw [← List.map_id out]
    apply List.map_congr_left
    intro row hrow
    exact runes_encode row (hvalid row hrow)
  refine ⟨out.map encode, ?_, ?_, ?_, ?_⟩
  · simp only [markMap, ho]
  · have h1 : ∀ l : List GoString, l.map (fun row => (runes row).length)
        = (l.map runes).map List.length := by
      intro l; rw [List.map_map]; rfl
    rw [h1, h1, hback, hlen]
  · intro q
    unfold charAt
    rw [hback]
    exact hcell q
  · intro hascii
    have hgrid : grid.map runes = grid := by
      conv_rhs => rw [← List.map_id grid]
      apply List.map_congr_left
      intro row hrow
      exact runesFrom_ascii row (hascii row hrow)
    have hout : ∀ row ∈ out, ∀ r ∈ row, r < 128 := by
      apply hval (fun r => r < 128) (by decide)
      rw [hgrid]; exact hascii
    have henc : out.map encode = out := by
      conv_rhs => rw [← List.map_id out]
      apply List.map_congr_left
      intro row hrow
      exact encode_ascii row (hout row hrow)
    rw [henc, hlen, hgrid]

/-! ## Properties of `markMap` -/

/-- C9: for every grid and every path whose coordinates are all in bounds,
`markMap(grid, path)` returns a grid in which every cell on the path whose
original character is neither `'S'` nor `'A'` holds the marker `'.'`, and
every cell on the path whose original character is `'S'` or `'A'` holds that
character.  Cells are addressed the way `markMap` addresses them, by the
index of the character in its row. -/
theorem markMap_marks_path (grid : List GoString) (path : List Position)
    (hin : ∀ p ∈ path, InBounds (grid.map runes) p) :
    ∃ out, markMap grid path = .ok out
      ∧ ∀ p ∈ path, ∀ c, charAt grid p = some c →
          (c ≠ startRune ∧ c ≠ exitRune → charAt out p = some dotRune)
          ∧ (c = startRune ∨ c = exitRune → charAt out p = some c) := by
  obtain ⟨out, ho, _, hcell, _⟩ := markMap_spec grid path hin
  refine ⟨out, ho, ?_⟩
  intro p hp c hc
  rw [hcell p, hc]
  constructor
  · intro h
    simp only [Option.map_some', marked, h.1, h.2, hp, ne_eq, not_false_eq_true, and_self,
      if_true]
  · intro h
    have : ¬ (c ≠ startRune ∧ c ≠ exitRune ∧ p ∈ path) := by
      rintro ⟨h1, h2, _⟩
      rcases h with h | h
      · exact h1 h
      · exact h2 h
    simp only [Option.map_some', marked, this, if_false]

/-- The path from `'S'` over a blank to `'A'` in the rows
`["#S #", "# A#"]`. -/
theorem markMap_marks_path_witness :
    ∃ out, markMap gridRender [⟨1, 0⟩, ⟨2, 0⟩, ⟨2, 1⟩] = .ok out
      ∧ ∀ p ∈ [(⟨1, 0⟩ : Position), ⟨2, 0⟩, ⟨2, 1⟩], ∀ c, charAt gridRender p = some c →
          (c ≠ startRune ∧ c ≠ exitRune → charAt out p = some dotRune)
          ∧ (c = startRune ∨ c = exitRune → charAt out p = some c) :=
  markMap_marks_path gridRender [⟨1, 0⟩, ⟨2, 0⟩, ⟨2, 1⟩] (by decide)

/-- C10: for every grid and every path whose coordinates are all in
bounds, `markMap(grid, path)` has as many rows as the grid and every row
has as many characters as before (and as many bytes, when the grid is
ASCII); every cell whose coordinate is not in the path has the same
character as in the grid; and no cell that holds `'S'` or `'A'` in the grid
is changed, also when it lies on the path. -/
theorem markMap_frame (grid : List GoString) (path : List Position)
    (hin : ∀ p ∈ path, InBounds (grid.map runes) p) :
    ∃ out, markMap grid path = .ok out
      ∧ out.length = grid.length
      ∧ out.map (fun row => (runes row).length) = grid.map (fun row => (runes row).length)
      ∧ ((∀ row ∈ grid, ∀ b ∈ row, b < 128) → out.map List.length = grid.map List.length)
      ∧ (∀ q, q ∉ path → charAt out q = charAt grid q)
      ∧ (∀ q, charAt grid q = some startRune ∨ charAt grid q = some exitRune →
          charAt out q = charAt grid q) := by
  obtain ⟨out, ho, hlen, hcell, hbytes⟩ := markMap_spec grid path hin
  refine ⟨out, ho, ?_, hlen, hbytes, ?_, ?_⟩
  · have := congrArg List.length hlen
    rwa [List.length_map, List.length_map] at this
  · intro q hq
    rw [hcell q]
    cases charAt grid q <;> simp [marked, hq]
  · intro q hq
    rw [hcell q]
    rcases hq with hq | hq <;> rw [hq] <;> simp [marked]

/-- A path over the wall after the two-byte character of the rows
`["é#", "€.A"]`. -/
theorem markMap_frame_witness :
    ∃ out, markMap gridWide [⟨1, 0⟩] = .ok out
      ∧ out.length = gridWide.length
      ∧ out.map (fun row => (runes row).length)
          = gridWide.map (fun row => (runes row).length)
      ∧ ((∀ row ∈ gridWide, ∀ b ∈ row, b < 128) →
          out.map List.length = gridWide.map List.length)
      ∧ (∀ q, q ∉ [(⟨1, 0⟩ : Position)] → charAt out q = charAt gridWide q)
      ∧ (∀ q, charAt gridWide q = some startRune ∨ charAt gridWide q = some exitRune →
          charAt out q = charAt gridWide q) :=
  markMap_frame gridWide [⟨1, 0⟩] (by decide)

/-! ## Every state of a run -/

theorem Inv.post_of_head {grid : List GoString} {start : Position} {s : Search}
    {dep : Position → Nat} {pre post : List Position} {curr : Position}
    (h : Inv grid start s dep pre post) (hh : s.head = pre.length)
    (hq : s.queue[s.head]? = some curr) : ∃ rest, post = curr :: rest := by
  rw [h.queue_eq, hh, List.getElem?_append_right (le_refl _), Nat.sub_self] at hq
  cases post with
  | nil => simp at hq
  | cons a rest =>
    simp only [List.getElem?_cons_zero, Option.some.injEq] at hq
    exact ⟨rest, by rw [hq]⟩

theorem not_isExit_of_cell {grid : List GoString} {curr : Position} {c : Nat}
    (hc : cellAt grid curr = some c) (hex : c ≠ exitByte) : ¬ IsExit grid curr := by
  intro e
  unfold IsExit at e
  rw [hc] at e
  exact hex (Option.some.inj e)

/-- At the head of the loop the invariant holds, `head` counts the expanded
coordinates and no exit has been found. -/
theorem atLoopHead_inv {grid : List GoString} (hr : Rectangular grid) {start : Position}
    (hs : InBounds grid start) {s : Search} (h : AtLoopHead grid start s) :
    ∃ dep pre post, Inv grid start s dep pre post ∧ s.head = pre.length
      ∧ s.found = false := by
  induction h with
  | init => exact ⟨fun _ => 0, [], [start], initial_inv hs, rfl, rfl⟩
  | @next s s1 curr c _ hq hc hex he ih =>
    obtain ⟨dep, pre, post, hinv, hh, hf⟩ := ih
    obtain ⟨rest, rfl⟩ := hinv.post_of_head hh hq
    have hne := not_isExit_of_cell hc hex
    have h0 : Inv grid start { s with head := s.head + 1 } dep pre (curr :: rest) :=
      { hinv with }
    obtain ⟨s2, dep1, post1, he2, h1, _, hd1, hh1, hf1⟩ :=
      expand_inv hr hne directions (fun d hd => hd) _ dep pre rest h0
    rw [he] at he2
    cases he2
    refine ⟨dep1, pre ++ [curr], post1, ?_, ?_, ?_⟩
    · refine h1.advance hne ?_
      intro v hv
      obtain ⟨d, hd, rfl⟩ := (manhattan_one_iff curr v).mp hv.1
      exact hd1 d hd hv.2
    · rw [hh1, List.length_append, List.length_singleton]
      exact congrArg (· + 1) hh
    · rw [hf1]; exact hf

/-- In every state of a run the invariant holds for some split of the
queue. -/
theorem reached_inv {grid : List GoString} (hr : Rectangular grid) {start : Position}
    (hs : InBounds grid start) {s : Search} (h : Reached grid start s) :
    ∃ dep pre post, Inv grid start s dep pre post := by
  cases h with
  | head h0 =>
    obtain ⟨dep, pre, post, hinv, _, _⟩ := atLoopHead_inv hr hs h0
    exact ⟨dep, pre, post, hinv⟩
  | popped h0 hq =>
    obtain ⟨dep, pre, post, hinv, _, _⟩ := atLoopHead_inv hr hs h0
    exact ⟨dep, pre, post, { hinv with }⟩
  | exit h0 hq hc =>
    obtain ⟨dep, pre, post, hinv, _, _⟩ := atLoopHead_inv hr hs h0
    exact ⟨dep, pre, post, { hinv with }⟩
  | @inner s0 _ curr c done todo h0 hq hc hex hdirs he =>
    obtain ⟨dep, pre, post, hinv, hh, _⟩ := atLoopHead_inv hr hs h0
    obtain ⟨rest, rfl⟩ := hinv.post_of_head hh hq
    have hne := not_isExit_of_cell hc hex
    have h1 : Inv grid start { s0 with head := s0.head + 1 } dep pre (curr :: rest) :=
      { hinv with }
    obtain ⟨s2, dep1, post1, he2, h2, _⟩ :=
      expand_inv hr hne done
        (fun d hd => by rw [← hdirs]; exact List.mem_append_left _ hd) _ dep pre rest h1
    rw [he] at he2
    cases he2
    exact ⟨dep1, pre, curr :: post1, h2⟩

/-- The state in which the search loop stops is a state of the run. -/
theorem search_reached (grid : List GoString) (start : Position) :
    ∀ (fuel : Nat) (s r : Search), AtLoopHead grid start s →
      search grid fuel s = .ok r → Reached grid start r := by
  intro fuel
  induction fuel with
  | zero =>
    intro s r h0 hsr
    simp only [search] at hsr
    by_cases hlt : s.head < s.queue.length
    · rw [if_pos hlt] at hsr; cases hsr
    · rw [if_neg hlt] at hsr; cases hsr; exact Reached.head h0
  | succ fuel ih =>
    intro s r h0 hsr
    rw [search] at hsr
    cases hq : s.queue[s.head]? with
    | none => rw [hq] at hsr; cases hsr; exact Reached.head h0
    | some curr =>
      rw [hq] at hsr
      simp only at hsr
      cases hc : cellAt grid curr with
      | none => rw [hc] at hsr; cases hsr
      | some c =>
        rw [hc] at hsr
        simp only at hsr
        by_cases hex : c = exitByte
        · rw [if_pos hex] at hsr
          cases hsr
          exact Reached.exit h0 hq (by rw [hc, hex])
        · rw [if_neg hex] at hsr
          cases he : expand grid curr directions { s with head := s.head + 1 } with
          | ok s1 =>
            rw [he] at hsr
            exact ih s1 r (AtLoopHead.next h0 hq hc hex he) hsr
          | panic => rw [he] at hsr; cases hsr
          | outOfFuel => rw [he] at hsr; cases hsr

/-- C11: in every state that a run of `bfs` on a rectangular grid with an
in-bounds start passes through, the queue holds no coordinate twice: the
queued coordinates are exactly the ones marked visited, so a coordinate is
appended only when it is first marked, and the queue, the final one
included, is never longer than the number of cells of the grid. -/
theorem bfs_queue_nodup (grid : List GoString) (start : Position) (s : Search)
    (hr : Rectangular grid) (hs : InBounds grid start) (h : Reached grid start s) :
    s.queue.Nodup ∧ (∀ p, s.visited p = true ↔ p ∈ s.queue)
      ∧ s.queue.length ≤ grid.length * width grid := by
  obtain ⟨dep, pre, post, hinv⟩ := reached_inv hr hs h
  exact ⟨hinv.nodup, hinv.visited_iff, hinv.length_le hr⟩

/-- The state in which the search of the maze with two equally short routes
stops is a state of its run. -/
theorem bfs_queue_nodup_witness :
    ∃ s, search mazeTie.grid 16 (initial mazeTie.start) = .ok s
      ∧ s.queue.Nodup ∧ (∀ p, s.visited p = true ↔ p ∈ s.queue)
      ∧ s.queue.length ≤ mazeTie.grid.length * width mazeTie.grid := by
  obtain ⟨s, dep, pre, post, hsearch, _⟩ :=
    search_inv (by decide : Rectangular mazeTie.grid) 16
      (initial mazeTie.start) (fun _ => 0) [] [mazeTie.start]
      (initial_inv (by decide : InBounds mazeTie.grid mazeTie.start)) rfl rfl (by decide)
  exact ⟨s, hsearch, bfs_queue_nodup mazeTie.grid mazeTie.start s (by decide) (by decide)
    (search_reached _ _ 16 _ s AtLoopHead.init hsearch)⟩

/-! ## Termination -/

/-- With one unit of fuel for every cell of a rectangular grid both loops of
`bfs` run to their end: the search stops in a state that satisfies the
invariant, and the parent walk from a found exit reaches the start. -/
theorem bfsFuel_run (maze : Maze) (hr : Rectangular maze.grid)
    (hs : InBounds maze.grid maze.start) (fuel : Nat)
    (hfuel : maze.grid.length * width maze.grid ≤ fuel) :
    ∃ s dep pre post, search maze.grid fuel (initial maze.start) = .ok s
      ∧ Stopped maze.grid maze.start s dep pre post
      ∧ ((s.found ≠ true ∧ bfsFuel fuel maze = .ok []) ∨
        (s.found = true ∧ ∃ l, walkBack maze.start s.parent fuel s.exit [] = .ok l
          ∧ bfsFuel fuel maze = .ok (l ++ [maze.start]).reverse
          ∧ Route maze.grid maze.start s.queue dep s.exit (l ++ [maze.start]).reverse)) := by
  obtain ⟨s, dep, pre, post, hsearch, hst⟩ :=
    search_inv hr fuel (initial maze.start) (fun _ => 0) [] [maze.start] (initial_inv hs)
      rfl rfl (by simpa using hfuel)
  refine ⟨s, dep, pre, post, hsearch, hst, ?_⟩
  by_cases hf : s.found = true
  · right
    have hmem := hst.exit_mem hf
    have hlt := hst.inv.dep_lt _ hmem
    have hlen := hst.inv.length_le hr
    obtain ⟨l, hl, hroute⟩ := walkBack_inv hst.inv fuel s.exit [] hmem (by omega)
    rw [List.nil_append] at hl
    refine ⟨hf, l, hl, ?_, hroute⟩
    simp only [bfsFuel, hsearch, hf, if_true, hl]
  · left
    refine ⟨hf, ?_⟩
    simp [bfsFuel, hsearch, hf]

/-- C12: on a rectangular grid with an in-bounds start `bfs` terminates.
The search loop ends within as many iterations as the grid has cells; the
parent links go from each queued coordinate other than the start to a
queued coordinate of smaller depth, so they form no cycle and lead to the
start, and the reconstruction loop from a found exit ends within as many
iterations as the grid has cells; the result of `bfs` is the same for every
amount of fuel from the number of cells on. -/
theorem bfs_terminates (maze : Maze) (hr : Rectangular maze.grid)
    (hs : InBounds maze.grid maze.start) :
    ∃ s, search maze.grid (maze.grid.length * width maze.grid) (initial maze.start) = .ok s
      ∧ (∃ dep : Position → Nat, dep maze.start = 0 ∧ ∀ p ∈ s.queue, p ≠ maze.start →
          s.parent p ∈ s.queue ∧ dep (s.parent p) < dep p)
      ∧ (s.found = true → ∃ l,
          walkBack maze.start s.parent (maze.grid.length * width maze.grid) s.exit [] = .ok l)
      ∧ bfs maze ≠ .outOfFuel
      ∧ ∀ fuel, maze.grid.length * width maze.grid ≤ fuel → bfsFuel fuel maze = bfs maze := by
  obtain ⟨s, dep, pre, post, hsearch, hst, hcase⟩ :=
    bfsFuel_run maze hr hs (maze.grid.length * width maze.grid) (le_refl _)
  have hno : bfsFuel (maze.grid.length * width maze.grid) maze ≠ .outOfFuel := by
    rcases hcase with ⟨_, hb⟩ | ⟨_, l, _, hb, _⟩ <;> rw [hb] <;> simp
  have hall : ∀ fuel, maze.grid.length * width maze.grid ≤ fuel →
      bfsFuel fuel maze = bfsFuel (maze.grid.length * width maze.grid) maze :=
    bfsFuel_le maze _ hno
  have hbfs : bfs maze = bfsFuel (maze.grid.length * width maze.grid) maze :=
    hall _ (Nat.le_succ _)
  refine ⟨s, hsearch, ⟨dep, hst.inv.dep_start, ?_⟩, ?_, ?_, ?_⟩
  · intro p hp hne
    obtain ⟨h1, _, _, h4⟩ := hst.inv.par p hp hne
    exact ⟨h1, by omega⟩
  · intro hf
    rcases hcase with ⟨hnf, _⟩ | ⟨_, l, hl, _, _⟩
    · exact absurd hf hnf
    · exact ⟨l, hl⟩
  · rw [hbfs]; exact hno
  · intro fuel hfuel
    rw [hbfs]; exact hall fuel hfuel

/-- Termination on the maze with two equally short routes, for its sixteen
cells. -/
theorem bfs_terminates_witness :
    ∃ s, search mazeTie.grid (mazeTie.grid.length * width mazeTie.grid)
        (initial mazeTie.start) = .ok s
      ∧ (∃ dep : Position → Nat, dep mazeTie.start = 0 ∧ ∀ p ∈ s.queue, p ≠ mazeTie.start →
          s.parent p ∈ s.queue ∧ dep (s.parent p) < dep p)
      ∧ (s.found = true → ∃ l,
          walkBack mazeTie.start s.parent (mazeTie.grid.length * width mazeTie.grid)
            s.exit [] = .ok l)
      ∧ bfs mazeTie ≠ .outOfFuel
      ∧ ∀ fuel, mazeTie.grid.length * width mazeTie.grid ≤ fuel →
          bfsFuel fuel mazeTie = bfs mazeTie :=
  bfs_terminates mazeTie (by decide) (by decide)

/-! ## The grid is not written -/

theorem expandStore_eq (curr : Position) :
    ∀ (ds : List Position) (st : BfsStore),
      expandStore curr ds st
        = (expand st.grid curr ds st.vars).map (fun v => { st with vars := v }) := by
  intro ds
  induction ds with
  | nil => intro st; rfl
  | cons d ds ih =>
    intro st
    simp only [expandStore, expand]
    cases hv : visit st.grid curr st.vars d with
    | ok v => simp only [ih]
    | panic => rfl
    | outOfFuel => rfl

theorem searchStore_eq :
    ∀ (fuel : Nat) (st : BfsStore),
      searchStore fuel st
        = (search st.grid fuel st.vars).map (fun v => { st with vars := v }) := by
  intro fuel
  induction fuel with
  | zero =>
    intro st
    simp only [searchStore, search]
    split_ifs <;> rfl
  | succ fuel ih =>
    intro st
    rw [searchStore, search]
    cases hq : st.vars.queue[st.vars.head]? with
    | none => rfl
    | some curr =>
      simp only
      cases hc : cellAt st.grid curr with
      | none => rfl
      | some c =>
        simp only
        by_cases hex : c = exitByte
        · rw [if_pos hex, if_pos hex]; rfl
        · rw [if_neg hex, if_neg hex, expandStore_eq]
          cases he : expand st.grid curr directions { st.vars with head := st.vars.head + 1 } with
          | ok v => simp only [Outcome.map, ih]
          | panic => rfl
          | outOfFuel => rfl

theorem markStore_eq :
    ∀ (path : List Position) (st : RenderStore),
      markStore path st
        = (mark st.mazeCopy path).map (fun rows => { st with mazeCopy := rows }) := by
  intro path
  induction path with
  | nil => intro st; rfl
  | cons pos rest ih =>
    intro st
    rw [markStore, mark]
    cases hc : cellAt st.mazeCopy pos with
    | none => rfl
    | some c =>
      simp only
      by_cases hm : c ≠ startRune ∧ c ≠ exitRune
      · rw [if_pos hm, if_pos hm, ih]
      · rw [if_neg hm, if_neg hm, ih]

/-- C13: the rows are never changed.  Run on a state that holds the rows,
`bfs` ends with the rows it was given and with the path that `bfs` returns,
and `markMap` ends with the rows it was given and with the result that
`markMap` returns: the only slice of rows that is written is `mazeCopy`. -/
theorem grid_unchanged (fuel : Nat) (maze : Maze) (grid : List GoString)
    (path : List Position) :
    (bfsStore fuel maze).map (fun st => (st.grid, st.path))
        = (bfsFuel fuel maze).map (fun p => (maze.grid, p))
      ∧ (markMapStore grid path).map (fun st => (st.maze, st.result))
        = (markMap grid path).map (fun r => (grid, r)) := by
  constructor
  · unfold bfsStore bfsFuel
    rw [searchStore_eq]
    cases hs : search maze.grid fuel (initial maze.start) with
    | ok v =>
      simp only [Outcome.map]
      by_cases hf : v.found = true
      · rw [if_pos hf, if_pos hf]
        cases hw : walkBack maze.start v.parent fuel v.exit [] <;> rfl
      · rw [if_neg hf, if_neg hf]
    | panic => rfl
    | outOfFuel => rfl
  · unfold markMapStore markMap
    rw [markStore_eq]
    cases hm : mark (grid.map runes) path <;> rfl

/-! ## The coordinates of the path -/

theorem Route.dep_getElem {grid : List GoString} {start : Position} {queue : List Position}
    {dep : Position → Nat} {e : Position} {l : List Position}
    (h : Route grid start queue dep e l) {i : Nat} {p : Position}
    (hp : l[i]? = some p) : dep p = i := by
  have h1 : (l.map dep)[i]? = some (dep p) := by
    rw [List.getElem?_map, hp]; rfl
  rw [h.deps] at h1
  obtain ⟨hlt, h2⟩ := List.getElem?_eq_some.mp h1
  rw [List.getElem_range] at h2
  exact h2.symm

theorem Route.nodup {grid : List GoString} {start : Position} {queue : List Position}
    {dep : Position → Nat} {e : Position} {l : List Position}
    (h : Route grid start queue dep e l) : l.Nodup := by
  have h1 : (l.map dep).Nodup := by rw [h.deps]; exact List.nodup_range _
  exact List.Nodup.of_map dep h1

/-- C15: on a rectangular grid with an in-bounds start, every coordinate of
a path returned by `bfs` is in bounds of the grid, and every coordinate
other than the first is not a wall.  The start itself is not checked
against `'#'`: from the start (0,0) on the wall of the row `["#A"]`, `bfs`
returns a path whose first coordinate is that wall. -/
theorem bfs_path_cells (maze : Maze) (hr : Rectangular maze.grid)
    (hs : InBounds maze.grid maze.start) (path : List Position)
    (hb : bfs maze = .ok path) :
    (∀ i p, path[i]? = some p →
        InBounds maze.grid p ∧ (0 < i → cellAt maze.grid p ≠ some wallByte))
      ∧ ∃ wpath, bfs mazeWallStart = .ok wpath
          ∧ wpath.head? = some mazeWallStart.start
          ∧ cellAt mazeWallStart.grid mazeWallStart.start = some wallByte := by
  refine ⟨?_, [⟨0, 0⟩, ⟨1, 0⟩], by decide, by decide, by decide⟩
  obtain ⟨s, dep, pre, post, hst, hcase⟩ := bfs_run maze hr hs
  rcases hcase with ⟨_, hb2⟩ | ⟨hf, path2, hb2, hroute⟩
  · rw [hb2] at hb
    cases hb
    intro i p hp
    simp at hp
  · rw [hb2] at hb
    cases hb
    intro i p hp
    refine ⟨hst.inv.inb p (hroute.mem p (List.getElem?_mem hp)), ?_⟩
    intro hi
    obtain ⟨j, rfl⟩ : ∃ j, i = j + 1 := ⟨i - 1, by omega⟩
    have hlt : j < path.length := by
      have := (List.getElem?_eq_some.mp hp).1
      omega
    have hq : path[j]? = some path[j] := List.getElem?_eq_getElem hlt
    exact (chain_getElem path hroute.chain j _ p hq hp).2.2

/-- The path of the maze with two equally short routes: its third
coordinate is in bounds and no wall. -/
theorem bfs_path_cells_witness :
    (∀ i p, [(⟨1, 1⟩ : Position), ⟨2, 1⟩, ⟨2, 2⟩][i]? = some p →
        InBounds mazeTie.grid p ∧ (0 < i → cellAt mazeTie.grid p ≠ some wallByte))
      ∧ ∃ wpath, bfs mazeWallStart = .ok wpath
          ∧ wpath.head? = some mazeWallStart.start
          ∧ cellAt mazeWallStart.grid mazeWallStart.start = some wallByte :=
  bfs_path_cells mazeTie (by decide) (by decide) [⟨1, 1⟩, ⟨2, 1⟩, ⟨2, 2⟩] (by decide)

/-- C16: on a rectangular grid with an in-bounds start, in a non-empty path
returned by `bfs` only the last coordinate is an exit: no coordinate before
the last one holds `'A'`. -/
theorem bfs_path_one_exit (maze : Maze) (hr : Rectangular maze.grid)
    (hs : InBounds maze.grid maze.start) (path : List Position)
    (hb : bfs maze = .ok path) (i : Nat) (p : Position)
    (hp : path[i]? = some p) (hi : i + 1 < path.length) :
    cellAt maze.grid p ≠ some exitByte := by
  obtain ⟨s, dep, pre, post, hst, hcase⟩ := bfs_run maze hr hs
  rcases hcase with ⟨_, hb2⟩ | ⟨hf, path2, hb2, hroute⟩
  · rw [hb2] at hb
    cases hb
    simp at hp
  · rw [hb2] at hb
    cases hb
    have hdep := hroute.dep_getElem hp
    have hlen := hroute.length_eq
    have hne : p ≠ s.exit := by
      intro e
      rw [e] at hdep
      omega
    exact hroute.inner p (List.getElem?_mem hp) hne

/-- The second coordinate of the path of the maze with two equally short
routes is not an exit. -/
theorem bfs_path_one_exit_witness :
    cellAt mazeTie.grid ⟨2, 1⟩ ≠ some exitByte :=
  bfs_path_one_exit mazeTie (by decide) (by decide) [⟨1, 1⟩, ⟨2, 1⟩, ⟨2, 2⟩] (by decide) 1
    ⟨2, 1⟩ (by decide) (by decide)

/-- C17: on a rectangular grid with an in-bounds start, a path returned by
`bfs` holds no coordinate more than once. -/
theorem bfs_path_nodup (maze : Maze) (hr : Rectangular maze.grid)
    (hs : InBounds maze.grid maze.start) (path : List Position)
    (hb : bfs maze = .ok path) : path.Nodup := by
  obtain ⟨s, dep, pre, post, hst, hcase⟩ := bfs_run maze hr hs
  rcases hcase with ⟨_, hb2⟩ | ⟨hf, path2, hb2, hroute⟩
  · rw [hb2] at hb
    cases hb
    exact List.nodup_nil
  · rw [hb2] at hb
    cases hb
    exact hroute.nodup

/-- The path of the maze with two equally short routes is simple. -/
theorem bfs_path_nodup_witness : [(⟨1, 1⟩ : Position), ⟨2, 1⟩, ⟨2, 2⟩].Nodup :=
  bfs_path_nodup mazeTie (by decide) (by decide) [⟨1, 1⟩, ⟨2, 1⟩, ⟨2, 2⟩] (by decide)

/-! ## The order of the queue -/

/-- One pass of the inner loop keeps the order of the queue.  `i` is the
rank of the direction `d`; before the pass every key is at most
`4 * key curr + i`, after it at most one more. -/
theorem visit_lex {grid : List GoString} (hr : Rectangular grid) {start : Position}
    {s s1 : Search} {dep : Position → Nat} {key : Position → Nat}
    {pre post : List Position} {curr d : Position} {i : Nat}
    (hrank : moveRank curr (neighbor curr d) = i)
    (h : Inv grid start s dep pre (curr :: post)) (hl : LexInv grid start s key pre)
    (hb : ∀ b ∈ s.queue, key b ≤ 4 * key curr + i)
    (hv : visit grid curr s d = .ok s1) :
    ∃ key1, LexInv grid start s1 key1 pre
      ∧ (∀ b ∈ s1.queue, key1 b ≤ 4 * key1 curr + (i + 1))
      ∧ (∀ p ∈ s.queue, key1 p = key p)
      ∧ (Open grid (neighbor curr d) →
          neighbor curr d ∈ s1.queue
            ∧ key1 (neighbor curr d)
              ≤ 4 * key1 curr + moveRank curr (neighbor curr d) + 1) := by
  rw [visit_rect hr] at hv
  have hcm := h.curr_mem
  by_cases hc : Open grid (neighbor curr d) ∧ s.visited (neighbor curr d) ≠ true
  · rw [if_pos hc] at hv
    cases hv
    obtain ⟨hopen, hnv⟩ := hc
    have hnq : neighbor curr d ∉ s.queue := fun hm => hnv ((h.visited_iff _).mpr hm)
    have hkey : ∀ p ∈ s.queue,
        Function.update key (neighbor curr d) (4 * key curr + i + 1) p = key p := by
      intro p hp
      exact Function.update_noteq (fun e : p = neighbor curr d => hnq (e ▸ hp)) _ _
    have hpar : ∀ p ∈ s.queue,
        Function.update s.parent (neighbor curr d) curr p = s.parent p := by
      intro p hp
      exact Function.update_noteq (fun e : p = neighbor curr d => hnq (e ▸ hp)) _ _
    refine ⟨Function.update key (neighbor curr d) (4 * key curr + i + 1), ?_, ?_, hkey, ?_⟩
    · constructor
      · rw [hkey _ h.start_mem]; exact hl.key_start
      · intro p hp hps
        change p ∈ s.queue ++ [neighbor curr d] at hp
        show Function.update key (neighbor curr d) (4 * key curr + i + 1) p
          = 4 * Function.update key (neighbor curr d) (4 * key curr + i + 1)
                (Function.update s.parent (neighbor curr d) curr p)
            + moveRank (Function.update s.parent (neighbor curr d) curr p) p + 1
        rcases List.mem_append.mp hp with hp | hp
        · rw [hpar p hp, hkey p hp, hkey _ (h.par p hp hps).1]
          exact hl.key_par p hp hps
        · rw [List.mem_singleton] at hp
          subst hp
          rw [Function.update_same, Function.update_same, hkey _ hcm, hrank]
      · show (s.queue ++ [neighbor curr d]).Pairwise _
        rw [List.pairwise_append]
        refine ⟨?_, List.pairwise_singleton _ _, ?_⟩
        · refine hl.ksorted.imp_of_mem ?_
          intro a b ha hb2 hab
          rw [hkey a ha, hkey b hb2]; exact hab
        · intro a ha b hb2
          rw [List.mem_singleton] at hb2
          subst hb2
          rw [hkey a ha, Function.update_same]
          exact Nat.lt_succ_of_le (hb a ha)
      · intro u hu v huv
        have huq : u ∈ s.queue := by rw [h.queue_eq]; simp [hu]
        obtain ⟨h1, h2⟩ := hl.kclosed u hu v huv
        show v ∈ s.queue ++ [neighbor curr d] ∧ _
        rw [hkey v h1, hkey u huq]
        exact ⟨List.mem_append_left _ h1, h2⟩
    · intro b hb2
      change b ∈ s.queue ++ [neighbor curr d] at hb2
      rw [hkey _ hcm]
      rcases List.mem_append.mp hb2 with hb2 | hb2
      · rw [hkey b hb2]
        have := hb b hb2
        omega
      · rw [List.mem_singleton] at hb2
        subst hb2
        rw [Function.update_same]
        omega
    · intro _
      refine ⟨?_, ?_⟩
      · show neighbor curr d ∈ s.queue ++ [neighbor curr d]
        simp
      · rw [Function.update_same, hkey _ hcm, hrank]
  · rw [if_neg hc] at hv
    cases hv
    refine ⟨key, hl, ?_, fun p _ => rfl, ?_⟩
    · intro b hb2
      have := hb b hb2
      omega
    · intro hopen
      have hvis : s.visited (neighbor curr d) = true := by
        by_contra hvis
        exact hc ⟨hopen, hvis⟩
      have hq := (h.visited_iff _).mp hvis
      have := hb _ hq
      rw [hrank]
      exact ⟨hq, by omega⟩

/-- The inner loop over directions `ds` of consecutive ranks from `i` on
keeps both parts of the invariant; afterwards every key is at most
`4 * key curr + i + len(ds)`, and every open neighbour of `curr` in a
direction of `ds` is queued with a key at most that of the route through
`curr`. -/
theorem expand_lex {grid : List GoString} (hr : Rectangular grid) {start curr : Position}
    (hne : ¬ IsExit grid curr) :
    ∀ (ds : List Position) (i : Nat), (∀ d ∈ ds, d ∈ directions) →
    (∀ j d, ds[j]? = some d → moveRank curr (neighbor curr d) = i + j) →
    ∀ (s : Search) (dep key : Position → Nat) (pre post : List Position),
    Inv grid start s dep pre (curr :: post) → LexInv grid start s key pre →
    (∀ b ∈ s.queue, key b ≤ 4 * key curr + i) →
    ∃ s1 dep1 key1 post1, expand grid curr ds s = .ok s1
      ∧ Inv grid start s1 dep1 pre (curr :: post1)
      ∧ LexInv grid start s1 key1 pre
      ∧ (∀ b ∈ s1.queue, key1 b ≤ 4 * key1 curr + (i + ds.length))
      ∧ (∀ p ∈ s.queue, p ∈ s1.queue ∧ dep1 p = dep p ∧ key1 p = key p)
      ∧ (∀ d ∈ ds, Open grid (neighbor curr d) →
          neighbor curr d ∈ s1.queue ∧ dep1 (neighbor curr d) ≤ dep1 curr + 1
            ∧ key1 (neighbor curr d)
              ≤ 4 * key1 curr + moveRank curr (neighbor curr d) + 1)
      ∧ s1.head = s.head ∧ s1.found = s.found := by
  intro ds
  induction ds with
  | nil =>
    intro i _ _ s dep key pre post h hl hb
    exact ⟨s, dep, key, post, rfl, h, hl, by simpa using hb,
      fun p hp => ⟨hp, rfl, rfl⟩, by simp, rfl, rfl⟩
  | cons d ds ih =>
    intro i hds hrank s dep key pre post h hl hb
    obtain ⟨s1, dep1, post1, hv, h1, hk1, hd1, hh1, hf1⟩ :=
      visit_inv hr (hds d (List.mem_cons_self _ _)) hne h
    obtain ⟨key1, hl1, hb1, hkey1, hdk1⟩ :=
      visit_lex hr (hrank 0 d (List.getElem?_cons_zero)) h hl hb hv
    obtain ⟨s2, dep2, key2, post2, he, h2, hl2, hb2, hk2, hd2, hh2, hf2⟩ :=
      ih (i + 1) (fun e he => hds e (List.mem_cons_of_mem _ he))
        (fun j e hj => by
          have := hrank (j + 1) e (by rw [List.getElem?_cons_succ]; exact hj)
          omega)
        s1 dep1 key1 pre post1 h1 hl1 hb1
    have hcurr := hk2 curr h1.curr_mem
    refine ⟨s2, dep2, key2, post2, ?_, h2, hl2, ?_, ?_, ?_, hh2.trans hh1, hf2.trans hf1⟩
    · simp only [expand, hv]; exact he
    · intro b hb3
      have := hb2 b hb3
      rw [List.length_cons]
      omega
    · intro p hp
      have a := hk1 p hp
      have b := hk2 p a.1
      exact ⟨b.1, b.2.1.trans a.2, b.2.2.trans (hkey1 p hp)⟩
    · intro e he2 hopen
      rcases List.mem_cons.mp he2 with he2 | he2
      · subst he2
        have a := hd1 hopen
        have ak := hdk1 hopen
        have b := hk2 _ a.1
        refine ⟨b.1, ?_, ?_⟩
        · rw [b.2.1, hcurr.2.1]; exact a.2
        · rw [b.2.2, hcurr.2.2]; exact ak.2
      · exact hd2 e he2 hopen

theorem directions_rank (curr : Position) :
    ∀ j d, directions[j]? = some d → moveRank curr (neighbor curr d) = 0 + j := by
  intro j d hj
  have hlt : j < 4 := (List.getElem?_eq_some.mp hj).1
  interval_cases j <;>
    simp only [directions, List.getElem?_cons_zero, List.getElem?_cons_succ,
      Option.some.injEq] at hj <;>
    subst hj <;>
    simp [moveRank, neighbor, directions, List.indexOf_cons]

theorem moveRank_lt {u v : Position} (h : manhattan u v = 1) : moveRank u v < 4 := by
  obtain ⟨d, hd, rfl⟩ := (manhattan_one_iff u v).mp h
  obtain ⟨j, hj⟩ := List.mem_iff_getElem?.mp hd
  have hlt : j < 4 := (List.getElem?_eq_some.mp hj).1
  have := directions_rank u j d hj
  omega

theorem LexInv.advanceKey {grid : List GoString} {start : Position} {s : Search}
    {key : Position → Nat} {pre : List Position} {curr : Position}
    (h : LexInv grid start s key pre)
    (hcl : ∀ v, Step grid curr v →
      v ∈ s.queue ∧ key v ≤ 4 * key curr + moveRank curr v + 1) :
    LexInv grid start s key (pre ++ [curr]) where
  key_start := h.key_start
  key_par := h.key_par
  ksorted := h.ksorted
  kclosed := by
    intro u hu v huv
    rcases List.mem_append.mp hu with hu | hu
    · exact h.kclosed u hu v huv
    · rw [List.mem_singleton] at hu; subst hu; exact hcl v huv

theorem initial_lex (grid : List GoString) (start : Position) :
    LexInv grid start (initial start) (fun _ => 0) [] where
  key_start := rfl
  key_par := by
    intro p hp hne
    simp only [initial, List.mem_singleton] at hp
    exact absurd hp hne
  ksorted := by simp [initial]
  kclosed := by intro u hu; simp at hu

/-- The search loop on a rectangular grid, with both parts of the
invariant: it stops without panic in a state in which they hold. -/
theorem search_lex {grid : List GoString} (hr : Rectangular grid) {start : Position} :
    ∀ (fuel : Nat) (s : Search) (dep key : Position → Nat) (pre post : List Position),
    Inv grid start s dep pre post → LexInv grid start s key pre →
    (∀ c ∈ post.head?, ∀ b ∈ s.queue, key b ≤ 4 * key c) →
    s.head = pre.length → s.found = false →
    grid.length * width grid ≤ fuel + pre.length →
    ∃ s1 dep1 key1 pre1 post1, search grid fuel s = .ok s1
      ∧ Stopped grid start s1 dep1 pre1 post1 ∧ LexInv grid start s1 key1 pre1 := by
  intro fuel
  induction fuel with
  | zero =>
    intro s dep key pre post h hl _ hh hf hfuel
    have hlen := h.length_le hr
    have hq := congrArg List.length h.queue_eq
    rw [List.length_append] at hq
    have hpost : post = [] := List.eq_nil_of_length_eq_zero (by omega)
    refine ⟨s, dep, key, pre, post, ?_, ⟨h, ?_, fun _ => hpost⟩, hl⟩
    · have : ¬ s.head < s.queue.length := by omega
      simp only [search, this, if_false]
    · intro hf2; rw [hf] at hf2; exact absurd hf2 (by decide)
  | succ fuel ih =>
    intro s dep key pre post h hl hb hh hf hfuel
    cases post with
    | nil =>
      refine ⟨s, dep, key, pre, [], ?_, ⟨h, ?_, fun _ => rfl⟩, hl⟩
      · have hnone : s.queue[s.head]? = none := by
          rw [List.getElem?_eq_none_iff, h.queue_eq, hh]; simp
        simp only [search, hnone]
      · intro hf2; rw [hf] at hf2; exact absurd hf2 (by decide)
    | cons curr post =>
      have hsome : s.queue[s.head]? = some curr := by
        rw [h.queue_eq, hh, List.getElem?_append_right (le_refl _)]; simp
      obtain ⟨c, hc⟩ := cellAt_of_inBounds (h.inb curr h.curr_mem)
      by_cases hex : c = exitByte
      · refine ⟨{ s with head := s.head + 1, exit := curr, found := true }, dep, key, pre,
          curr :: post, ?_, ⟨?_, ?_, ?_⟩, ?_⟩
        · simp only [search, hsome, hc, hex, if_true]
        · exact { h with }
        · intro _
          exact ⟨by show cellAt grid curr = some exitByte; rw [hc, hex], post, rfl⟩
        · intro hf2; exact absurd rfl hf2
        · exact { hl with }
      · have hne := not_isExit_of_cell hc hex
        have h0 : Inv grid start { s with head := s.head + 1 } dep pre (curr :: post) :=
          { h with }
        have hl0 : LexInv grid start { s with head := s.head + 1 } key pre := { hl with }
        obtain ⟨s1, dep1, key1, post1, he, h1, hl1, hb1, _, hd1, hh1, hf1⟩ :=
          expand_lex hr hne directions 0 (fun d hd => hd) (directions_rank curr) _ dep key
            pre post h0 hl0 (by simpa using hb curr rfl)
        have h2 : Inv grid start s1 dep1 (pre ++ [curr]) post1 := by
          refine h1.advance hne ?_
          intro v hv
          obtain ⟨d, hd, rfl⟩ := (manhattan_one_iff curr v).mp hv.1
          exact ⟨(hd1 d hd hv.2).1, (hd1 d hd hv.2).2.1⟩
        have hl2 : LexInv grid start s1 key1 (pre ++ [curr]) := by
          refine hl1.advanceKey ?_
          intro v hv
          obtain ⟨d, hd, rfl⟩ := (manhattan_one_iff curr v).mp hv.1
          exact ⟨(hd1 d hd hv.2).1, (hd1 d hd hv.2).2.2⟩
        have hb2 : ∀ c ∈ post1.head?, ∀ b ∈ s1.queue, key1 b ≤ 4 * key1 c := by
          intro c hc2 b hb3
          have hcm : c ∈ post1 := List.mem_of_mem_head? hc2
          have hs := hl1.ksorted
          rw [h1.queue_eq, List.pairwise_append] at hs
          have hlt := (List.pairwise_cons.mp hs.2.1).1 c hcm
          have := hb1 b hb3
          simp only [directions, List.length_cons, List.length_nil] at this
          omega
        obtain ⟨s3, dep3, key3, pre3, post3, hs3, hst, hl3⟩ :=
          ih s1 dep1 key1 (pre ++ [curr]) post1 h2 hl2 hb2
            (by rw [hh1, List.length_append, List.length_singleton]; exact congrArg (· + 1) hh)
            (by rw [hf1]; exact hf)
            (by rw [List.length_append, List.length_singleton]; omega)
        refine ⟨s3, dep3, key3, pre3, post3, ?_, hst, hl3⟩
        simp only [search, hsome, hc, hex, if_false, he]
        exact hs3

/-! ## Sequences of moves -/

theorem moveKey_snoc (ms : List Nat) (r : Nat) :
    moveKey (ms ++ [r]) = 4 * moveKey ms + r + 1 := by
  simp [moveKey, List.foldl_append]

theorem moves_snoc : ∀ (l : List Position) (u v : Position), l.getLast? = some u →
    moves (l ++ [v]) = moves l ++ [moveRank u v] := by
  intro l
  induction l with
  | nil => intro u v h; simp at h
  | cons a t ih =>
    intro u v h
    cases t with
    | nil =>
      simp only [List.getLast?_singleton, Option.some.injEq] at h
      subst h
      rfl
    | cons b t =>
      have h2 : (b :: t).getLast? = some u := by
        rw [List.getLast?_cons_cons] at h; exact h
      have := ih u v h2
      simp only [List.cons_append] at this ⊢
      simp only [moves, this, List.cons_append]

theorem foldl_key (ms : List Nat) :
    ∀ c, ms.foldl (fun acc r => 4 * acc + r + 1) c = c * 4 ^ ms.length + moveKey ms := by
  induction ms with
  | nil => intro c; simp [moveKey]
  | cons r ms ih =>
    intro c
    have h1 := ih (4 * c + r + 1)
    have h2 := ih (4 * 0 + r + 1)
    simp only [List.foldl_cons, moveKey, List.length_cons] at h1 h2 ⊢
    rw [h1, h2, pow_succ]
    ring

theorem moveKey_cons (r : Nat) (ms : List Nat) :
    moveKey (r :: ms) = (r + 1) * 4 ^ ms.length + moveKey ms := by
  have := foldl_key ms (4 * 0 + r + 1)
  simp only [moveKey, List.foldl_cons] at this ⊢
  rw [this]
  simp

theorem moveKey_bounds : ∀ (ms : List Nat), (∀ x ∈ ms, x < 4) →
    4 ^ ms.length ≤ 3 * moveKey ms + 1 ∧ 3 * moveKey ms + 4 ≤ 4 * 4 ^ ms.length := by
  intro ms
  induction ms with
  | nil => intro _; simp [moveKey]
  | cons r ms ih =>
    intro h
    have hr : r < 4 := h r (List.mem_cons_self _ _)
    obtain ⟨h1, h2⟩ := ih (fun x hx => h x (List.mem_cons_of_mem _ hx))
    rw [moveKey_cons, List.length_cons, pow_succ]
    have e1 : (r + 1) * 4 ^ ms.length ≤ 4 * 4 ^ ms.length :=
      Nat.mul_le_mul_right _ (by omega)
    have e2 : 1 * 4 ^ ms.length ≤ (r + 1) * 4 ^ ms.length :=
      Nat.mul_le_mul_right _ (by omega)
    generalize (r + 1) * 4 ^ ms.length = t at e1 e2 ⊢
    generalize 4 ^ ms.length = q at h1 h2 e1 e2 ⊢
    omega

/-- Sequences of moves of equal length are in lexicographic order when
their keys are in order. -/
theorem lexLe_of_moveKey_le : ∀ (a b : List Nat), a.length = b.length →
    (∀ x ∈ a, x < 4) → (∀ x ∈ b, x < 4) → moveKey a ≤ moveKey b → lexLe a b := by
  intro a
  induction a with
  | nil => intro b _ _ _ _; cases b <;> simp [lexLe]
  | cons x xs ih =>
    intro b hlen ha hb hk
    cases b with
    | nil => simp at hlen
    | cons y ys =>
      have hlen2 : xs.length = ys.length := by simpa using hlen
      obtain ⟨a1, a2⟩ := moveKey_bounds xs (fun z hz => ha z (List.mem_cons_of_mem _ hz))
      obtain ⟨b1, b2⟩ := moveKey_bounds ys (fun z hz => hb z (List.mem_cons_of_mem _ hz))
      rw [moveKey_cons, moveKey_cons, hlen2] at hk
      rw [hlen2] at a1 a2
      unfold lexLe
      by_cases hxy : x < y
      · exact Or.inl hxy
      · right
        have hyx : y ≤ x := Nat.le_of_not_lt hxy
        by_cases heq : x = y
        · subst heq
          refine ⟨rfl, ih ys hlen2 (fun z hz => ha z (List.mem_cons_of_mem _ hz))
            (fun z hz => hb z (List.mem_cons_of_mem _ hz)) ?_⟩
          omega
        · exfalso
          have e1 : (y + 1 + 1) * 4 ^ ys.length ≤ (x + 1) * 4 ^ ys.length :=
            Nat.mul_le_mul_right _ (by omega)
          rw [Nat.succ_mul (y + 1)] at e1
          generalize (x + 1) * 4 ^ ys.length = t at e1 hk
          generalize (y + 1) * 4 ^ ys.length = u at e1 hk
          generalize 4 ^ ys.length = q at a1 a2 b1 b2 e1
          omega

/-- A list of coordinates that begins at `start` and goes by steps ends on
a coordinate that its moves reach, and either that coordinate is queued with
a key at most that of the moves, or a coordinate that is still to pop has
such a key. -/
theorem route_key {grid : List GoString} {start : Position} {s : Search}
    {dep key : Position → Nat} {pre post : List Position}
    (h : Inv grid start s dep pre post) (hl : LexInv grid start s key pre) :
    ∀ (l : List Position) (v : Position), l.head? = some start → l.getLast? = some v →
      l.Chain' (Step grid) →
      Walk grid start v (l.length - 1) ∧ (moves l).length = l.length - 1
        ∧ (∀ x ∈ moves l, x < 4)
        ∧ ((v ∈ s.queue ∧ key v ≤ moveKey (moves l)) ∨ ∃ w ∈ post, key w ≤ moveKey (moves l)) := by
  intro l
  induction l using List.reverseRecOn with
  | nil => intro v hh; simp at hh
  | append_singleton l w ih =>
    intro v hhead hlast hchain
    have hv : w = v := by simpa using hlast
    subst hv
    cases hu : l.getLast? with
    | none =>
      have hnil : l = [] := List.getLast?_eq_none_iff.mp hu
      subst hnil
      have hw : w = start := by simpa using hhead
      subst hw
      refine ⟨Walk.here, rfl, by simp [moves], Or.inl ⟨h.start_mem, ?_⟩⟩
      rw [hl.key_start]; exact Nat.zero_le _
    | some u =>
      have hne : l ≠ [] := by intro e; rw [e] at hu; simp at hu
      rw [List.chain'_append] at hchain
      have hstep : Step grid u w := hchain.2.2 u hu w (by simp)
      have hhead2 : l.head? = some start := by
        rw [List.head?_append_of_ne_nil _ hne] at hhead; exact hhead
      obtain ⟨hwalk, hlen, hlt, hcase⟩ := ih u hhead2 hu hchain.1
      have hpos : 0 < l.length := List.length_pos.mpr hne
      have haux : ∀ n : Nat, 0 < n → n + 1 - 1 = n - 1 + 1 := fun n hn => by omega
      have hlen3 : (l ++ [w]).length - 1 = (l.length - 1) + 1 := by
        rw [List.length_append, List.length_singleton]; exact haux _ hpos
      rw [moves_snoc l u w hu, moveKey_snoc, hlen3]
      refine ⟨Walk.move hwalk hstep, ?_, ?_, ?_⟩
      · rw [List.length_append, List.length_singleton, hlen]
      · intro x hx
        rcases List.mem_append.mp hx with hx | hx
        · exact hlt x hx
        · rw [List.mem_singleton] at hx; rw [hx]; exact moveRank_lt hstep.1
      · rcases hcase with ⟨huq, hk⟩ | ⟨z, hz, hk⟩
        · rw [h.queue_eq] at huq
          rcases List.mem_append.mp huq with huq | huq
          · obtain ⟨h1, h2⟩ := hl.kclosed u huq w hstep
            exact Or.inl ⟨h1, by omega⟩
          · exact Or.inr ⟨u, huq, by omega⟩
        · exact Or.inr ⟨z, hz, by omega⟩

/-- The key of a queued coordinate is the key of the moves of the route
that the parent walk gives for it. -/
theorem walkBack_key {grid : List GoString} {start : Position} {s : Search}
    {dep key : Position → Nat} {pre post : List Position}
    (h : Inv grid start s dep pre post) (hl : LexInv grid start s key pre) :
    ∀ (fuel : Nat) (p : Position) (acc : List Position), p ∈ s.queue → dep p ≤ fuel →
    ∃ l, walkBack start s.parent fuel p acc = .ok (acc ++ l)
      ∧ (l ++ [start]).reverse.getLast? = some p
      ∧ moveKey (moves (l ++ [start]).reverse) = key p := by
  intro fuel
  induction fuel with
  | zero =>
    intro p acc hp hfuel
    by_cases hps : p = start
    · subst hps
      exact ⟨[], by simp [walkBack], rfl, by simp [moves, moveKey, hl.key_start]⟩
    · have := (h.par p hp hps).2.2.2
      omega
  | succ fuel ih =>
    intro p acc hp hfuel
    by_cases hps : p = start
    · subst hps
      exact ⟨[], by simp [walkBack], rfl, by simp [moves, moveKey, hl.key_start]⟩
    · obtain ⟨hq, _, _, hdep⟩ := h.par p hp hps
      obtain ⟨l, hw, hlast, hkey⟩ := ih (s.parent p) (acc ++ [p]) hq (by omega)
      refine ⟨p :: l, ?_, ?_, ?_⟩
      · simp only [walkBack, hps, if_false, hw, List.append_assoc, List.singleton_append]
      · have hrev : (p :: l ++ [start]).reverse = (l ++ [start]).reverse ++ [p] := by simp
        rw [hrev, List.getLast?_append]; rfl
      · have hrev : (p :: l ++ [start]).reverse = (l ++ [start]).reverse ++ [p] := by simp
        rw [hrev, moves_snoc _ _ p hlast, moveKey_snoc, hkey]
        exact (hl.key_par p hp hps).symm

theorem Stopped.exit_key_le {grid : List GoString} {start : Position} {s : Search}
    {dep key : Position → Nat} {pre post : List Position}
    (h : Stopped grid start s dep pre post) (hl : LexInv grid start s key pre)
    (hf : s.found = true) : ∀ w ∈ post, key s.exit ≤ key w := by
  obtain ⟨_, rest, hpost⟩ := h.found hf
  intro w hw
  have hs := hl.ksorted
  rw [h.inv.queue_eq, hpost, List.pairwise_append] at hs
  rw [hpost] at hw
  rcases List.mem_cons.mp hw with hw | hw
  · rw [hw]
  · exact Nat.le_of_lt ((List.pairwise_cons.mp hs.2.1).1 w hw)

/-- C14: the neighbours are generated in the order east, west, south,
north, and this order breaks the ties.  On a rectangular grid with an
in-bounds start and a reachable exit, the path that `bfs` returns leads
from the start to an exit by steps, no list of coordinates that does so is
shorter, and among those of the same length, which are the shortest paths
to the nearest exits, its sequence of moves is the lexicographically least
under east < west < south < north. -/
theorem bfs_lex_least (maze : Maze) (hr : Rectangular maze.grid)
    (hs : InBounds maze.grid maze.start)
    (hreach : ∃ a k, IsExit maze.grid a ∧ Walk maze.grid maze.start a k) :
    directions = [⟨1, 0⟩, ⟨-1, 0⟩, ⟨0, 1⟩, ⟨0, -1⟩]
      ∧ ∃ path, bfs maze = .ok path ∧ ExitRoute maze.grid maze.start path
        ∧ ∀ other, ExitRoute maze.grid maze.start other →
            path.length ≤ other.length
              ∧ (other.length = path.length → lexLe (moves path) (moves other)) := by
  refine ⟨rfl, ?_⟩
  obtain ⟨s, dep, key, pre, post, hsearch, hst, hl⟩ :=
    search_lex hr (maze.grid.length * width maze.grid + 1) (initial maze.start)
      (fun _ => 0) (fun _ => 0) [] [maze.start] (initial_inv hs)
      (initial_lex maze.grid maze.start) (fun _ _ _ _ => Nat.zero_le _) rfl rfl (by simp)
  by_cases hf : s.found = true
  · have hmem := hst.exit_mem hf
    have hlt := hst.inv.dep_lt _ hmem
    have hlen := hst.inv.length_le hr
    obtain ⟨l, hw, hroute⟩ :=
      walkBack_inv hst.inv (maze.grid.length * width maze.grid + 1) s.exit [] hmem
        (by omega)
    obtain ⟨l2, hw2, _, hkey⟩ :=
      walkBack_key hst.inv hl (maze.grid.length * width maze.grid + 1) s.exit [] hmem
        (by omega)
    rw [hw] at hw2
    have hll : l2 = l := by
      have := Outcome.ok.inj hw2
      simpa using this.symm
    subst hll
    rw [List.nil_append] at hw
    refine ⟨(l2 ++ [maze.start]).reverse, ?_,
      ⟨hroute.first, ⟨s.exit, hroute.last, (hst.found hf).1⟩, hroute.chain⟩, ?_⟩
    · simp only [bfs, bfsFuel, hsearch, hf, if_true, hw]
    · intro other ho
      obtain ⟨a, hlast, hexa⟩ := ho.last
      obtain ⟨hwalk, hmlen, hmlt, hcase⟩ :=
        route_key hst.inv hl other a ho.first hlast ho.chain
      obtain ⟨_, hplen, hplt, _⟩ :=
        route_key hst.inv hl _ s.exit hroute.first hroute.last hroute.chain
      have hmin := hst.exit_min hf a _ hexa hwalk
      have hpl := hroute.length_eq
      have hopos : 0 < other.length := by
        cases other with
        | nil => simp at hlast
        | cons x xs => simp
      have hkle : key s.exit ≤ moveKey (moves other) := by
        rcases hcase with ⟨haq, hk⟩ | ⟨w, hwp, hk⟩
        · rw [hst.inv.queue_eq] at haq
          rcases List.mem_append.mp haq with haq | haq
          · exact absurd hexa (hst.inv.noexit a haq)
          · exact (hst.exit_key_le hl hf a haq).trans hk
        · exact (hst.exit_key_le hl hf w hwp).trans hk
      clear hcase
      refine ⟨by omega, ?_⟩
      intro heq
      refine lexLe_of_moveKey_le _ _ ?_ hplt hmlt ?_
      · rw [hplen, hmlen, heq]
      · rw [hkey]; exact hkle
  · obtain ⟨a, k, ha, hw⟩ := hreach
    exact absurd ha (hst.no_exit hf a k hw)

/-- The maze with two equally short routes: `bfs` returns the route east
then south, whose moves `[0, 2]` come before the moves `[2, 0]` of the route
south then east. -/
theorem bfs_lex_least_witness :
    bfs mazeTie = .ok [⟨1, 1⟩, ⟨2, 1⟩, ⟨2, 2⟩]
      ∧ moves [⟨1, 1⟩, ⟨2, 1⟩, ⟨2, 2⟩] = [0, 2]
      ∧ moves [⟨1, 1⟩, ⟨1, 2⟩, ⟨2, 2⟩] = [2, 0]
      ∧ (directions = [⟨1, 0⟩, ⟨-1, 0⟩, ⟨0, 1⟩, ⟨0, -1⟩]
        ∧ ∃ path, bfs mazeTie = .ok path ∧ ExitRoute mazeTie.grid mazeTie.start path
          ∧ ∀ other, ExitRoute mazeTie.grid mazeTie.start other →
              path.length ≤ other.length
                ∧ (other.length = path.length → lexLe (moves path) (moves other))) :=
  ⟨by decide, by decide, by decide,
    bfs_lex_least mazeTie (by decide) (by decide)
      ⟨⟨2, 2⟩, 2, by decide, Walk.move (Walk.move (v := ⟨1, 1⟩) (w := ⟨2, 1⟩) Walk.here
        (by decide)) (by decide)⟩⟩

/-! ## Bytes and characters -/

/-- C18 fails on rows with characters of several bytes: `bfs` counts the
columns in bytes and `markMap` in characters.  On the rows
`["########", "#SééA#", "########"]`, all of eight bytes, `bfs` from (1,1)
returns the path over the byte offsets 1 to 6 of the middle row, and
`markMap` with that path panics on the offset 6, which is no index of the
six runes of its copy of that row. -/
theorem markMap_bfs_multibyte :
    Rectangular mazeAccent.grid ∧ InBounds mazeAccent.grid mazeAccent.start
      ∧ bfs mazeAccent = .ok [⟨1, 1⟩, ⟨2, 1⟩, ⟨3, 1⟩, ⟨4, 1⟩, ⟨5, 1⟩, ⟨6, 1⟩]
      ∧ runes [35, 83, 195, 169, 195, 169, 65, 35] = [35, 83, 233, 233, 65, 35]
      ∧ markMap mazeAccent.grid [⟨1, 1⟩, ⟨2, 1⟩, ⟨3, 1⟩, ⟨4, 1⟩, ⟨5, 1⟩, ⟨6, 1⟩] = .panic := by
  decide

/-- On a rectangular grid of ASCII bytes, where a byte offset is the index
of a character, every coordinate of a path returned by `bfs` is an index
into the copy of the rows that `markMap` makes, and `markMap` with that path
does not panic. -/
theorem markMap_bfs_ascii (maze : Maze) (hr : Rectangular maze.grid)
    (hs : InBounds maze.grid maze.start)
    (hascii : ∀ row ∈ maze.grid, ∀ b ∈ row, b < 128) (path : List Position)
    (hb : bfs maze = .ok path) :
    (∀ p ∈ path, InBounds (maze.grid.map runes) p)
      ∧ ∃ out, markMap maze.grid path = .ok out := by
  have hgrid : maze.grid.map runes = maze.grid := by
    conv_rhs => rw [← List.map_id maze.grid]
    apply List.map_congr_left
    intro row hrow
    exact runesFrom_ascii row (hascii row hrow)
  have hin : ∀ p ∈ path, InBounds (maze.grid.map runes) p := by
    intro p hp
    rw [hgrid]
    obtain ⟨s, dep, pre, post, hst, hcase⟩ := bfs_run maze hr hs
    rcases hcase with ⟨_, hb2⟩ | ⟨hf, path2, hb2, hroute⟩
    · rw [hb2] at hb
      cases hb
      simp at hp
    · rw [hb2] at hb
      cases hb
      exact hst.inv.inb p (hroute.mem p hp)
  obtain ⟨out, ho, _⟩ := markMap_spec maze.grid path hin
  exact ⟨hin, out, ho⟩

/-! ## Rendering twice -/

/-- Two slices of rows with the same row lengths and the same cells are
equal. -/
theorem rows_ext {a b : List (List Nat)} (hlen : a.map List.length = b.map List.length)
    (hcell : ∀ q, cellAt a q = cellAt b q) : a = b := by
  apply List.ext_getElem?
  intro n
  have h1 := congrArg (fun l => l[n]?) hlen
  simp only [List.getElem?_map] at h1
  have hidx : ∀ (l : List (List Nat)), index l (n : Int) = l[n]? := by
    intro l
    simp [index]
  cases ha : a[n]? with
  | none =>
    cases hb : b[n]? with
    | none => rfl
    | some rb => rw [ha, hb] at h1; simp at h1
  | some ra =>
    cases hb : b[n]? with
    | none => rw [ha, hb] at h1; simp at h1
    | some rb =>
      rw [ha, hb] at h1
      simp only [Option.map_some', Option.some.injEq] at h1
      congr 1
      apply List.ext_getElem?
      intro m
      have h2 := hcell ⟨(m : Int), (n : Int)⟩
      simp only [cellAt, hidx, ha, hb, Option.some_bind] at h2
      simpa [index] using h2

theorem marked_marked (path : List Position) (q : Position) (c : Nat) :
    marked path q (marked path q c) = marked path q c := by
  unfold marked
  by_cases h : c ≠ startRune ∧ c ≠ exitRune ∧ q ∈ path
  · rw [if_pos h, if_pos ⟨by decide, by decide, h.2.2⟩]
  · rw [if_neg h, if_neg h]

/-- C19: `markMap` is idempotent in its grid argument: for every grid and
every path whose coordinates are all in bounds, rendering the rendered grid
with the same path gives the rendered grid again. -/
theorem markMap_idempotent (grid : List GoString) (path : List Position)
    (hin : ∀ p ∈ path, InBounds (grid.map runes) p) :
    ∃ out, markMap grid path = .ok out ∧ markMap out path = .ok out := by
  obtain ⟨rows1, hm1, hlen1, hcell1, hval1⟩ := mark_spec path (grid.map runes) hin
  have hvalid : ∀ row ∈ rows1, ∀ r ∈ row, ValidRune r := by
    apply hval1 ValidRune (Or.inl (by decide))
    intro row hrow r hr
    obtain ⟨s, _, rfl⟩ := List.mem_map.mp hrow
    exact runes_valid s r hr
  have hback : (rows1.map encode).map runes = rows1 := by
    rw [List.map_map]
    conv_rhs => rw [← List.map_id rows1]
    apply List.map_congr_left
    intro row hrow
    exact runes_encode row (hvalid row hrow)
  have hin1 : ∀ p ∈ path, InBounds rows1 p := by
    intro p hp
    have := hin p hp
    unfold InBounds at this ⊢
    rw [hcell1 p]
    cases hc : cellAt (grid.map runes) p with
    | none => rw [hc] at this; simp at this
    | some c => rfl
  obtain ⟨rows2, hm2, hlen2, hcell2, _⟩ := mark_spec path rows1 hin1
  have heq : rows2 = rows1 := by
    apply rows_ext hlen2
    intro q
    rw [hcell2 q, hcell1 q]
    cases cellAt (grid.map runes) q with
    | none => rfl
    | some c => simp only [Option.map_some', marked_marked]
  refine ⟨rows1.map encode, ?_, ?_⟩
  · simp only [markMap, hm1]
  · simp only [markMap, hback, hm2, heq]

/-- Rendering the rows `["#S #", "# A#"]` twice with the path from `'S'` to
`'A'`. -/
theorem markMap_idempotent_witness :
    ∃ out, markMap gridRender [⟨1, 0⟩, ⟨2, 0⟩, ⟨2, 1⟩] = .ok out
      ∧ markMap out [⟨1, 0⟩, ⟨2, 0⟩, ⟨2, 1⟩] = .ok out :=
  markMap_idempotent gridRender [⟨1, 0⟩, ⟨2, 0⟩, ⟨2, 1⟩] (by decide)

end Molver
